import Mathlib

/-!
# Verification of `doppler/utils.py`

A shallow embedding of the numerical core of the `doppler` repository's
`utils.py`: the wavelength/pixel coordinate mapper (`w2p`, `p2w`), the sparse
band-matrix builder and convolver (`sparsify`, `convolve_sparse`), and the
logarithmic wavelength grid builder (`make_logwave_scale`).

The coordinate mapper and the convolver are modelled over exact rationals
(`ℚ`): every operation they perform is field arithmetic.  The log-grid
builder uses `log10` and `10 ** x`, so it is modelled over the reals (`ℝ`)
with `Real.logb` and `Real.rpow`.  NumPy's NaN fill values are modelled as
`Option` (`none` = NaN), following the spec's own suggestion to use "an
enumerated per-element status alongside the value" in languages without
implicit NaN propagation.  In-place array mutation (the kernel rows that
`convolve_sparse` renormalizes through NumPy views) is modelled by explicit
state passing: the convolver returns both the output spectrum and the final
state of the kernel matrix.
-/

/-! ## Generic list minimum / maximum (np.min, np.max, dln.minmax)

`np.min` / `np.max` of a nonempty array; the default value `0` for the empty
list is never exercised by the theorems (NumPy raises there). -/

/-- `np.min` of an array (0 for the empty array, which NumPy rejects). -/
def lmin {α : Type} [LinearOrder α] [Zero α] : List α → α
  | [] => 0
  | a :: t => t.foldl min a

/-- `np.max` of an array (0 for the empty array, which NumPy rejects). -/
def lmax {α : Type} [LinearOrder α] [Zero α] : List α → α
  | [] => 0
  | a :: t => t.foldl max a

/-! ## CoordinateMapper (`w2p`, `p2w`), over ℚ -/

/-- `np.arange n` as a rational list. -/
def arange (n : ℕ) : List ℚ := (List.range n).map (fun (i : ℕ) => (i : ℚ))

/-- Ordering of (x, y) pairs by their x coordinate: the sort key used by
`scipy.interpolate.interp1d(assume_sorted=False)` and by `np.argsort` in
`w2p`'s extrapolation branch. -/
def leFst (a b : ℚ × ℚ) : Prop := a.1 ≤ b.1

instance : DecidableRel leFst := fun a b => inferInstanceAs (Decidable (a.1 ≤ b.1))

instance : IsTotal (ℚ × ℚ) leFst := ⟨fun a b => le_total a.1 b.1⟩

instance : IsTrans (ℚ × ℚ) leFst := ⟨fun _ _ _ h h' => le_trans h h'⟩

/-- Sort a list of (x, y) pairs by x (the data-sorting step of
`interp1d(..., assume_sorted=False)` and of `w2p`'s `np.argsort`). -/
def sortPairs (ps : List (ℚ × ℚ)) : List (ℚ × ℚ) := List.insertionSort leFst ps

/-- Index of the interpolation segment: the number of knots `≤ t`, minus one. -/
def findSeg (xs : List ℚ) (t : ℚ) : ℕ :=
  (xs.filter (fun x => decide (x ≤ t))).length - 1

/-- Evaluation of a cubic Hermite segment with values `y0, y1`, end slopes
`m0, m1`, width `h`, at normalized abscissa `s ∈ [0, 1]`. -/
def hermite (y0 y1 m0 m1 h s : ℚ) : ℚ :=
  y0 + s * (h * m0) + s ^ 2 * (3 * (y1 - y0) - h * (2 * m0 + m1))
    + s ^ 3 * (2 * (y0 - y1) + h * (m0 + m1))

/-- Finite-difference slope at knot `j` (centered inside, one-sided at the two
ends) used by the cubic pieces of the interpolant. -/
def crSlope (xs ys : List ℚ) (j : ℕ) : ℚ :=
  if j = 0 then
    (ys.getD 1 0 - ys.getD 0 0) / (xs.getD 1 0 - xs.getD 0 0)
  else if j = xs.length - 1 then
    (ys.getD j 0 - ys.getD (j - 1) 0) / (xs.getD j 0 - xs.getD (j - 1) 0)
  else
    (ys.getD (j + 1) 0 - ys.getD (j - 1) 0) / (xs.getD (j + 1) 0 - xs.getD (j - 1) 0)

/-- Modelled from the spec: the external cubic interpolation collaborator
(`scipy.interpolate.interp1d(x, y, kind='cubic', bounds_error=False,
fill_value=(nan, nan))` applied to one query point); its code is not part of
this repository.  It is "a monotone-robust 1D cubic interpolation routine
supporting out-of-domain fill values": a piecewise-cubic interpolant through
the sorted data points `(xs, ys)` that returns the NaN marker `none` for a
query outside `[xs[0], xs[n-1]]`.  The cubic pieces here are Hermite segments
with finite-difference slopes; the classic knot-interpolation property
(`interp(xs[i]) = ys[i]`) and the out-of-domain `none` behaviour — all the
spec relies on — hold for scipy's spline as well. -/
def interpCubic (xs ys : List ℚ) (t : ℚ) : Option ℚ :=
  let n := xs.length
  if n < 2 then none
  else if t < xs.getD 0 0 ∨ xs.getD (n - 1) 0 < t then none
  else
    let j := min (findSeg xs t) (n - 2)
    let x0 := xs.getD j 0
    let x1 := xs.getD (j + 1) 0
    let s := (t - x0) / (x1 - x0)
    some (hermite (ys.getD j 0) (ys.getD (j + 1) 0)
      (crSlope xs ys j) (crSlope xs ys (j + 1)) (x1 - x0) s)

/-- Modelled from the spec: `dln.poly(x, coef)` for a degree-2 coefficient
triple — polynomial evaluation with the highest-degree coefficient first
(the external PolynomialFitter collaborator's evaluation half). -/
def polyEval (coef : ℚ × ℚ × ℚ) (x : ℚ) : ℚ :=
  coef.1 * x ^ 2 + coef.2.1 * x + coef.2.2

/-- Modelled from the spec: `dln.poly_fit(x, y, 2)` — the external
least-squares degree-2 polynomial fit collaborator, solved exactly through
the 3×3 normal equations by Cramer's rule (coefficients highest degree
first; a singular system yields the junk value 0, as ℚ division by zero). -/
def polyFit2 (xs ys : List ℚ) : ℚ × ℚ × ℚ :=
  let S0 : ℚ := xs.length
  let S1 := xs.sum
  let S2 := (xs.map (fun x => x ^ 2)).sum
  let S3 := (xs.map (fun x => x ^ 3)).sum
  let S4 := (xs.map (fun x => x ^ 4)).sum
  let T0 := ys.sum
  let T1 := ((xs.zip ys).map (fun p => p.1 * p.2)).sum
  let T2 := ((xs.zip ys).map (fun p => p.1 ^ 2 * p.2)).sum
  let det := S4 * (S2 * S0 - S1 * S1) - S3 * (S3 * S0 - S2 * S1)
    + S2 * (S3 * S1 - S2 * S2)
  let n2 := T2 * (S2 * S0 - S1 * S1) - S3 * (T1 * S0 - T0 * S1)
    + S2 * (T1 * S1 - T0 * S2)
  let n1 := S4 * (T1 * S0 - T0 * S1) - T2 * (S3 * S0 - S2 * S1)
    + S2 * (S3 * T0 - S2 * T1)
  let n0 := S4 * (S2 * T0 - T1 * S1) - S3 * (S3 * T0 - T1 * S2)
    + T2 * (S3 * S1 - S2 * S2)
  (n2 / det, n1 / det, n0 / det)

/-- Effective start of the Python slice `a[n-10:]` for a list of length `n`
(a negative start index counts from the end and clamps at 0). -/
def lastTenStart (n : ℕ) : ℕ := if 10 ≤ n then n - 10 else 2 * n - 10

/-- `w2p(dispersion, w, extrapolate)`: wavelength → pixel.  Builds the cubic
interpolant of pixel index against wavelength (data sorted by wavelength,
out-of-domain queries give the NaN marker `none`), then — when requested and
needed — overwrites the positions below `min(dispersion)` (resp. above
`max(dispersion)`) with a quadratic fitted to the 10 lowest (resp. highest)
sorted data points. -/
def w2p (dispersion w : List ℚ) (extrapolate : Bool) : List (Option ℚ) :=
  let n := dispersion.length
  let pairs := sortPairs (dispersion.zip (arange n))
  let win := pairs.map Prod.fst
  let xin := pairs.map Prod.snd
  let x0 := w.map (fun t => interpCubic win xin t)
  if (lmin w < lmin dispersion ∨ lmax dispersion < lmax w) ∧ extrapolate = true then
    let x1 :=
      if lmin w < lmin dispersion then
        let coef1 := polyFit2 (win.take 10) (xin.take 10)
        (w.zip x0).map (fun p =>
          if p.1 < lmin dispersion then some (polyEval coef1 p.1) else p.2)
      else x0
    if lmax dispersion < lmax w then
      let coef2 := polyFit2 (win.drop (lastTenStart n)) (xin.drop (lastTenStart n))
      (w.zip x1).map (fun p =>
        if lmax dispersion < p.1 then some (polyEval coef2 p.1) else p.2)
    else x1
  else x0

/-- `p2w(dispersion, x, extrapolate)`: pixel → wavelength.  Cubic interpolant
of wavelength against pixel index `0..npix-1` (out-of-domain gives `none`),
then — when requested and needed — quadratic extrapolation for positions
`< 0` from the first 10 points and for positions `> npix - 1` from the last
10 points. -/
def p2w (dispersion x : List ℚ) (extrapolate : Bool) : List (Option ℚ) :=
  let npix := dispersion.length
  let pairs := sortPairs ((arange npix).zip dispersion)
  let xs := pairs.map Prod.fst
  let ys := pairs.map Prod.snd
  let w0 := x.map (fun t => interpCubic xs ys t)
  if (lmin x < 0 ∨ (npix : ℚ) - 1 < lmax x) ∧ extrapolate = true then
    let w1 :=
      if lmin x < 0 then
        let coef1 := polyFit2 ((arange npix).take 10) (dispersion.take 10)
        (x.zip w0).map (fun p =>
          if p.1 < 0 then some (polyEval coef1 p.1) else p.2)
      else w0
    if (npix : ℚ) - 1 < lmax x then
      let coef2 := polyFit2 ((arange npix).drop (lastTenStart npix))
        (dispersion.drop (lastTenStart npix))
      (x.zip w1).map (fun p =>
        if (npix : ℚ) - 1 < p.1 then some (polyEval coef2 p.1) else p.2)
    else w1
  else w0

/-! ## BandMatrixBuilder (`sparsify`) and SparseConvolver (`convolve_sparse`)

The kernel matrix `lsf[npix, nlsf]` is a function `ℕ → ℕ → ℚ` together with
its two explicit dimensions; the spectrum is a function `ℕ → ℚ` of length
`npix`. -/

/-- The `offsets` list built by `sparsify`: `nx//2 - ii` for each kernel
column `ii` (`nx = nlsf`). -/
def sparsifyOffsets (nlsf : ℕ) : List ℤ :=
  (List.range nlsf).map (fun (ii : ℕ) => ((nlsf / 2 : ℕ) : ℤ) - (ii : ℤ))

/-- The `diagonals` list built by `sparsify`: column `ii` of the kernel with
`offset` entries dropped from the head (`lsf[offset:, ii]`) for a nonnegative
offset, or `|offset|` entries dropped from the tail (`lsf[:offset, ii]`) for
a negative one. -/
def sparsifyDiagonals (npix nlsf : ℕ) (lsf : ℕ → ℕ → ℚ) : List (List ℚ) :=
  (List.range nlsf).map (fun (ii : ℕ) =>
    let off : ℤ := ((nlsf / 2 : ℕ) : ℤ) - (ii : ℤ)
    if off < 0 then (List.range (npix - off.natAbs)).map (fun m => lsf m ii)
    else (List.range (npix - off.toNat)).map (fun m => lsf (m + off.toNat) ii))

/-- Modelled from the spec: entry `(r, c)` of the external sparse
diagonal-matrix collaborator `scipy.sparse.diags(diagonals, offsets)` (the
DIA storage format): each stored diagonal `offsets[j]` contributes its entry
`diagonals[j][min r c]` to the positions `c - r = offsets[j]`, and a
matrix-vector product sums the stored diagonals' contributions. -/
def diagsEntry (diagonals : List (List ℚ)) (offsets : List ℤ) (r c : ℕ) : ℚ :=
  ∑ j ∈ Finset.range offsets.length,
    if offsets.getD j 0 = (c : ℤ) - (r : ℤ) then (diagonals.getD j []).getD (min r c) 0
    else 0

/-- Entry `(r, c)` of the sparse band operator `sparsify(lsf)`. -/
def sparsifyMat (npix nlsf : ℕ) (lsf : ℕ → ℕ → ℚ) (r c : ℕ) : ℚ :=
  diagsEntry (sparsifyDiagonals npix nlsf lsf) (sparsifyOffsets nlsf) r c

/-- The raw matrix–vector product `sparsify(lsf).dot(spec)` of
`convolve_sparse` before its edge correction. -/
def rawConv (npix nlsf : ℕ) (lsf : ℕ → ℕ → ℚ) (spec : ℕ → ℚ) (r : ℕ) : ℚ :=
  ∑ c ∈ Finset.range npix, sparsifyMat npix nlsf lsf r c * spec c

/-- One iteration of the first edge-correction loop of `convolve_sparse`
(`for i in range(hlf+1)`): take the truncated row view
`lsf1 = lsf[i, hlf-i:]`, divide it by its sum in place, and overwrite
`out[i]` with `sum(spec[0:len(lsf1)] * lsf1)`.  The state is the pair
(output spectrum, current kernel matrix). -/
def edgeStepLo (npix nlsf : ℕ) (spec : ℕ → ℚ)
    (st : (ℕ → ℚ) × (ℕ → ℕ → ℚ)) (i : ℕ) : (ℕ → ℚ) × (ℕ → ℕ → ℚ) :=
  let hlf := nlsf / 2
  let lo := hlf - i
  let len := nlsf - lo
  let s := ∑ m ∈ Finset.range len, st.2 i (lo + m)
  let A : ℕ → ℕ → ℚ := fun x y =>
    if x = i ∧ lo ≤ y ∧ y < nlsf then st.2 x y / s else st.2 x y
  (fun r => if r = i then ∑ m ∈ Finset.range len, spec m * A i (lo + m) else st.1 r, A)

/-- One iteration of the second edge-correction loop of `convolve_sparse`:
`ii = npix-i-1`, the truncated row view `lsf1 = lsf[ii, :hlf+1+i]` (the slice
clamps at the row length `nlsf`), divided by its sum in place, and
`out[ii] = sum(spec[npix-len(lsf1):] * lsf1)`. -/
def edgeStepHi (npix nlsf : ℕ) (spec : ℕ → ℚ)
    (st : (ℕ → ℚ) × (ℕ → ℕ → ℚ)) (i : ℕ) : (ℕ → ℚ) × (ℕ → ℕ → ℚ) :=
  let hlf := nlsf / 2
  let ii := npix - i - 1
  let len := min (hlf + 1 + i) nlsf
  let s := ∑ m ∈ Finset.range len, st.2 ii m
  let A : ℕ → ℕ → ℚ := fun x y =>
    if x = ii ∧ y < len then st.2 x y / s else st.2 x y
  (fun r => if r = ii then ∑ m ∈ Finset.range len, spec (npix - len + m) * A ii m
    else st.1 r, A)

/-- `convolve_sparse(spec, lsf)`: the sparse matrix–vector product followed by
the two sequential edge-correction loops.  Returns the output spectrum
together with the final state of the kernel matrix (whose edge-row views the
loops divide in place). -/
def convolveSparse (npix nlsf : ℕ) (lsf : ℕ → ℕ → ℚ) (spec : ℕ → ℚ) :
    (ℕ → ℚ) × (ℕ → ℕ → ℚ) :=
  let hlf := nlsf / 2
  let st1 := (List.range (hlf + 1)).foldl (edgeStepLo npix nlsf spec)
    (rawConv npix nlsf lsf spec, lsf)
  (List.range (hlf + 1)).foldl (edgeStepHi npix nlsf spec) st1

/-- The identity kernel matrix: every row is 1 at the center column
`nlsf // 2` and 0 elsewhere. -/
def idKernel (nlsf : ℕ) : ℕ → ℕ → ℚ := fun _ j => if j = nlsf / 2 then 1 else 0

/-! ## LogGridBuilder (`make_logwave_scale`), over ℝ -/

noncomputable section

/-- The speed of light in km/s (`cspeed` in `utils.py`). -/
def cspeed : ℝ := 299792.458

/-- `dln.slope`: successive differences `array[i+1] - array[i]`. -/
def slopeList (l : List ℝ) : List ℝ :=
  (List.range (l.length - 1)).map (fun i => l.getD (i + 1) 0 - l.getD i 0)

/-- `np.median`: middle element of the sorted array for odd length, mean of
the two middle elements for even length (0 for the empty array, which NumPy
turns into NaN). -/
def median (l : List ℝ) : ℝ :=
  let s := List.insertionSort (fun a b : ℝ => a ≤ b) l
  let n := l.length
  if n % 2 = 1 then s.getD (n / 2) 0
  else (s.getD (n / 2 - 1) 0 + s.getD (n / 2) 0) / 2

/-- Python `int(x)`: truncation toward zero. -/
def pytrunc (r : ℝ) : ℤ := if 0 ≤ r then ⌊r⌋ else ⌈r⌉

/-- The log-step `dwlog` of `make_logwave_scale`: the median of the slopes of
`log10(wave)`. -/
def logGridDwlog (wave : List ℝ) : ℝ :=
  median (slopeList (wave.map (fun x => Real.logb 10 x)))

/-- The low-side pad count `nlo` of `make_logwave_scale`. -/
def logGridNlo (wave : List ℝ) (vel : ℝ) : ℤ :=
  let wr0 := lmin wave
  let wlo := wr0 - |vel| / cspeed * wr0
  ⌈(Real.logb 10 wr0 - Real.logb 10 wlo) / logGridDwlog wave⌉

/-- The high-side pad count `nhi` of `make_logwave_scale`. -/
def logGridNhi (wave : List ℝ) (vel : ℝ) : ℤ :=
  let wr1 := lmax wave
  let whi := wr1 + |vel| / cspeed * wr1
  ⌈(Real.logb 10 whi - Real.logb 10 wr1) / logGridDwlog wave⌉

/-- The interior sample count `n` of `make_logwave_scale`: a truncating
division (`np.int`) when `vel == 0`, a ceiling otherwise. -/
def logGridN (wave : List ℝ) (vel : ℝ) : ℤ :=
  let q := (Real.logb 10 (lmax wave) - Real.logb 10 (lmin wave)) / logGridDwlog wave
  if |vel| = 0 then pytrunc q else ⌈q⌉

/-- The total grid length `nf = n + nlo + nhi` of `make_logwave_scale`. -/
def logGridNf (wave : List ℝ) (vel : ℝ) : ℤ :=
  logGridN wave vel + logGridNlo wave vel + logGridNhi wave vel

/-- `make_logwave_scale(wave, vel)`: the uniform log₁₀ grid
`fwave[k] = 10 ** ((k - nlo) * dwlog + log10(min wave))` for
`k in 0..nf-1`, shifted by the constant `fwave[nlo] - wave[0]` so that the
element at offset `nlo` equals `wave[0]` exactly. -/
def make_logwave_scale (wave : List ℝ) (vel : ℝ) : List ℝ :=
  let wr0 := lmin wave
  let dwlog := logGridDwlog wave
  let nlo := logGridNlo wave vel
  let nf := logGridNf wave vel
  let raw : List ℝ := (List.range nf.toNat).map
    (fun (k : ℕ) => (10 : ℝ) ^ (((k : ℝ) - ((nlo : ℤ) : ℝ)) * dwlog + Real.logb 10 wr0))
  let corr := raw.getD nlo.toNat 0 - wave.getD 0 0
  raw.map (fun x => x - corr)

end

/-! ## Helper lemmas: list minimum / maximum and sortedness -/

theorem foldl_min_le_init {α : Type} [LinearOrder α] (t : List α) (a : α) :
    t.foldl min a ≤ a := by
  induction t generalizing a with
  | nil => simp
  | cons b t ih => exact le_trans (ih (min a b)) (min_le_left a b)

theorem foldl_min_le_mem {α : Type} [LinearOrder α] (t : List α) (a : α) :
    ∀ x ∈ t, t.foldl min a ≤ x := by
  induction t generalizing a with
  | nil => simp
  | cons b t ih =>
    intro x hx
    rcases List.mem_cons.mp hx with h | h
    · subst h
      exact le_trans (foldl_min_le_init t (min a x)) (min_le_right a x)
    · exact ih (min a b) x h

theorem foldl_min_mem {α : Type} [LinearOrder α] (t : List α) (a : α) :
    t.foldl min a = a ∨ t.foldl min a ∈ t := by
  induction t generalizing a with
  | nil => simp
  | cons b t ih =>
    rcases ih (min a b) with h | h
    · rcases min_cases a b with ⟨h', _⟩ | ⟨h', _⟩
      · left; simp only [List.foldl_cons]; rw [h, h']
      · right; simp only [List.foldl_cons]; rw [h, h']; exact List.mem_cons_self b t
    · right; exact List.mem_cons_of_mem b h

theorem lmin_le_of_mem {α : Type} [LinearOrder α] [Zero α] {l : List α} {x : α}
    (hx : x ∈ l) : lmin l ≤ x := by
  cases l with
  | nil => cases hx
  | cons a t =>
    rcases List.mem_cons.mp hx with h | h
    · subst h; exact foldl_min_le_init t x
    · exact foldl_min_le_mem t a x h

theorem lmin_mem {α : Type} [LinearOrder α] [Zero α] {l : List α} (h : l ≠ []) :
    lmin l ∈ l := by
  cases l with
  | nil => exact absurd rfl h
  | cons a t =>
    rcases foldl_min_mem t a with h' | h'
    · rw [lmin, h']; exact List.mem_cons_self a t
    · exact List.mem_cons_of_mem a h'

theorem foldl_max_ge_init {α : Type} [LinearOrder α] (t : List α) (a : α) :
    a ≤ t.foldl max a := by
  induction t generalizing a with
  | nil => simp
  | cons b t ih => exact le_trans (le_max_left a b) (ih (max a b))

theorem foldl_max_ge_mem {α : Type} [LinearOrder α] (t : List α) (a : α) :
    ∀ x ∈ t, x ≤ t.foldl max a := by
  induction t generalizing a with
  | nil => simp
  | cons b t ih =>
    intro x hx
    rcases List.mem_cons.mp hx with h | h
    · subst h
      exact le_trans (le_max_right a x) (foldl_max_ge_init t (max a x))
    · exact ih (max a b) x h

theorem foldl_max_mem {α : Type} [LinearOrder α] (t : List α) (a : α) :
    t.foldl max a = a ∨ t.foldl max a ∈ t := by
  induction t generalizing a with
  | nil => simp
  | cons b t ih =>
    rcases ih (max a b) with h | h
    · rcases max_cases a b with ⟨h', _⟩ | ⟨h', _⟩
      · left; simp only [List.foldl_cons]; rw [h, h']
      · right; simp only [List.foldl_cons]; rw [h, h']; exact List.mem_cons_self b t
    · right; exact List.mem_cons_of_mem b h

theorem le_lmax_of_mem {α : Type} [LinearOrder α] [Zero α] {l : List α} {x : α}
    (hx : x ∈ l) : x ≤ lmax l := by
  cases l with
  | nil => cases hx
  | cons a t =>
    rcases List.mem_cons.mp hx with h | h
    · subst h; exact foldl_max_ge_init t x
    · exact foldl_max_ge_mem t a x h

theorem lmax_mem {α : Type} [LinearOrder α] [Zero α] {l : List α} (h : l ≠ []) :
    lmax l ∈ l := by
  cases l with
  | nil => exact absurd rfl h
  | cons a t =>
    rcases foldl_max_mem t a with h' | h'
    · rw [lmax, h']; exact List.mem_cons_self a t
    · exact List.mem_cons_of_mem a h'

theorem lmin_perm {α : Type} [LinearOrder α] [Zero α] {l l' : List α}
    (h : l.Perm l') : lmin l = lmin l' := by
  rcases eq_or_ne l [] with rfl | hne
  · rw [h.nil_eq.symm]
  · have hne' : l' ≠ [] := fun h' => hne (List.Perm.eq_nil (h' ▸ h))
    exact le_antisymm
      (lmin_le_of_mem (h.mem_iff.mpr (lmin_mem hne')))
      (lmin_le_of_mem (h.mem_iff.mp (lmin_mem hne)))

theorem lmax_perm {α : Type} [LinearOrder α] [Zero α] {l l' : List α}
    (h : l.Perm l') : lmax l = lmax l' := by
  rcases eq_or_ne l [] with rfl | hne
  · rw [h.nil_eq.symm]
  · have hne' : l' ≠ [] := fun h' => hne (List.Perm.eq_nil (h' ▸ h))
    exact le_antisymm
      (le_lmax_of_mem (h.mem_iff.mp (lmax_mem hne)))
      (le_lmax_of_mem (h.mem_iff.mpr (lmax_mem hne')))

theorem sorted_getD_le {α : Type} [LinearOrder α] [Zero α] {l : List α}
    (hs : List.Sorted (· ≤ ·) l) {i j : ℕ} (hij : i ≤ j) (hj : j < l.length) :
    l.getD i 0 ≤ l.getD j 0 := by
  rcases eq_or_lt_of_le hij with rfl | hlt
  · exact le_refl _
  · rw [List.getD_eq_getElem l 0 (lt_trans hlt hj), List.getD_eq_getElem l 0 hj]
    exact List.pairwise_iff_getElem.mp hs i j (lt_trans hlt hj) hj hlt

theorem sorted_getD_lt {α : Type} [LinearOrder α] [Zero α] {l : List α}
    (hs : List.Sorted (· < ·) l) {i j : ℕ} (hij : i < j) (hj : j < l.length) :
    l.getD i 0 < l.getD j 0 := by
  rw [List.getD_eq_getElem l 0 (lt_trans hij hj), List.getD_eq_getElem l 0 hj]
  exact List.pairwise_iff_getElem.mp hs i j (lt_trans hij hj) hj hij

theorem lmin_eq_head {α : Type} [LinearOrder α] [Zero α] {l : List α}
    (hs : List.Sorted (· ≤ ·) l) (h : l ≠ []) : lmin l = l.getD 0 0 := by
  have h0 : 0 < l.length := List.length_pos.mpr h
  refine le_antisymm (lmin_le_of_mem ?_) ?_
  · rw [List.getD_eq_getElem l 0 h0]; exact List.getElem_mem h0
  · rcases List.mem_iff_getElem.mp (lmin_mem h) with ⟨j, hj, hval⟩
    rw [← hval, ← List.getD_eq_getElem l 0 hj]
    exact sorted_getD_le hs (Nat.zero_le j) hj

theorem lmax_eq_last {α : Type} [LinearOrder α] [Zero α] {l : List α}
    (hs : List.Sorted (· ≤ ·) l) (h : l ≠ []) : lmax l = l.getD (l.length - 1) 0 := by
  have h0 : l.length - 1 < l.length := by
    have := List.length_pos.mpr h; omega
  refine le_antisymm ?_ (le_lmax_of_mem ?_)
  · rcases List.mem_iff_getElem.mp (lmax_mem h) with ⟨j, hj, hval⟩
    rw [← hval, ← List.getD_eq_getElem l 0 hj]
    exact sorted_getD_le hs (by omega) h0
  · rw [List.getD_eq_getElem l 0 h0]; exact List.getElem_mem h0

/-! ## Helper lemmas: the cubic interpolant at a knot -/

theorem hermite_zero (y0 y1 m0 m1 h : ℚ) : hermite y0 y1 m0 m1 h 0 = y0 := by
  unfold hermite; ring

theorem hermite_one (y0 y1 m0 m1 h : ℚ) : hermite y0 y1 m0 m1 h 1 = y1 := by
  unfold hermite; ring

theorem findSeg_at_knot (xs : List ℚ) (hs : List.Sorted (· < ·) xs) (i : ℕ)
    (hi : i < xs.length) : findSeg xs (xs.getD i 0) = i := by
  have hsplit := List.take_append_drop (i + 1) xs
  have htlen : (xs.take (i + 1)).length = i + 1 := by
    rw [List.length_take]; omega
  have h1 : (xs.take (i + 1)).filter (fun x => decide (x ≤ xs.getD i 0)) = xs.take (i + 1) := by
    rw [List.filter_eq_self]
    intro a ha
    rcases List.mem_iff_getElem.mp ha with ⟨k, hk, hval⟩
    have hk' : k ≤ i := by rw [htlen] at hk; omega
    have : a = xs.getD k 0 := by
      rw [← hval, List.getElem_take, List.getD_eq_getElem xs 0 (by omega)]
    subst this
    rcases eq_or_lt_of_le hk' with rfl | hlt
    · simp
    · simpa using le_of_lt (sorted_getD_lt hs hlt hi)
  have h2 : (xs.drop (i + 1)).filter (fun x => decide (x ≤ xs.getD i 0)) = [] := by
    rw [List.filter_eq_nil_iff]
    intro a ha
    rcases List.mem_iff_getElem.mp ha with ⟨k, hk, hval⟩
    have hk' : i + 1 + k < xs.length := by
      rw [List.length_drop] at hk; omega
    have : a = xs.getD (i + 1 + k) 0 := by
      rw [← hval, List.getElem_drop, List.getD_eq_getElem xs 0 hk']
    subst this
    simpa using sorted_getD_lt hs (by omega) hk'
  have hfil : xs.filter (fun x => decide (x ≤ xs.getD i 0)) =
      xs.take (i + 1) := by
    have := congrArg (List.filter (fun x => decide (x ≤ xs.getD i 0))) hsplit
    rw [List.filter_append, h1, h2, List.append_nil] at this
    exact this.symm
  rw [findSeg, hfil, htlen]
  omega

theorem interpCubic_knot (xs ys : List ℚ) (hs : List.Sorted (· < ·) xs)
    (h2 : 2 ≤ xs.length) (i : ℕ) (hi : i < xs.length) :
    interpCubic xs ys (xs.getD i 0) = some (ys.getD i 0) := by
  have hn2 : ¬ xs.length < 2 := by omega
  have hlo : ¬ (xs.getD i 0 < xs.getD 0 0 ∨ xs.getD (xs.length - 1) 0 < xs.getD i 0) := by
    push_neg
    constructor
    · exact sorted_getD_le (hs.imp le_of_lt) (Nat.zero_le i) hi
    · exact sorted_getD_le (hs.imp le_of_lt) (by omega) (by omega)
  rw [interpCubic]
  simp only [hn2, if_false, hlo, if_false, findSeg_at_knot xs hs i hi]
  rcases Nat.lt_or_ge i (xs.length - 1) with hcase | hcase
  · have hmin : min i (xs.length - 2) = i := by omega
    rw [hmin, sub_self, zero_div, hermite_zero]
  · have hieq : i = xs.length - 1 := by omega
    have hmin : min i (xs.length - 2) = xs.length - 2 := by omega
    have hsucc : xs.length - 2 + 1 = i := by omega
    have hne : xs.getD (xs.length - 2 + 1) 0 - xs.getD (xs.length - 2) 0 ≠ 0 := by
      have := sorted_getD_lt hs (i := xs.length - 2) (j := xs.length - 2 + 1)
        (by omega) (by omega)
      exact ne_of_gt (sub_pos.mpr this)
    rw [hmin, hsucc]
    rw [show xs.getD i 0 - xs.getD (xs.length - 2) 0 =
      xs.getD i 0 - xs.getD (xs.length - 2) 0 from rfl]
    rw [← hsucc] at hi ⊢
    rw [div_self hne, hermite_one]

/-! ## Helper lemmas: sortedness of the interpolation tables -/

theorem arange_length (n : ℕ) : (arange n).length = n := by
  rw [arange, List.length_map, List.length_range]

theorem arange_getD (n i : ℕ) (hi : i < n) : (arange n).getD i 0 = (i : ℚ) := by
  have hlen : i < (arange n).length := by rw [arange_length]; exact hi
  rw [List.getD_eq_getElem _ 0 hlen]
  simp only [arange, List.getElem_map, List.getElem_range]

theorem arange_sorted (n : ℕ) : List.Sorted (· < ·) (arange n) := by
  rw [List.Sorted, List.pairwise_iff_getElem]
  intro i j hi hj hij
  rw [arange_length] at hi hj
  have h1 : (arange n)[i] = ((i : ℚ)) := by
    rw [← List.getD_eq_getElem _ 0, arange_getD n i hi]
  have h2 : (arange n)[j] = ((j : ℚ)) := by
    rw [← List.getD_eq_getElem _ 0, arange_getD n j hj]
  rw [h1, h2]
  exact_mod_cast hij

theorem zip_sorted_leFst (D l : List ℚ) (hD : List.Sorted (· ≤ ·) D) :
    List.Sorted leFst (D.zip l) := by
  rw [List.Sorted, List.pairwise_iff_getElem]
  intro i j hi hj hij
  have hlen : (D.zip l).length = min D.length l.length := by
    rw [List.length_zip]
  have hiD : i < D.length := by omega
  have hjD : j < D.length := by omega
  rw [List.getElem_zip, List.getElem_zip]
  show D[i] ≤ D[j]
  exact List.pairwise_iff_getElem.mp hD i j hiD hjD hij

theorem sortPairs_of_sorted {ps : List (ℚ × ℚ)} (h : List.Sorted leFst ps) :
    sortPairs ps = ps := h.insertionSort_eq

/-! ## Helper lemmas: `w2p` and `p2w` at a knot -/

theorem lmin_singleton (x : ℚ) : lmin [x] = x := rfl

theorem lmax_singleton (x : ℚ) : lmax [x] = x := rfl

theorem p2w_knot (D : List ℚ) (i : ℕ) (h2 : 2 ≤ D.length) (hi : i < D.length) :
    p2w D [(i : ℚ)] true = [some (D.getD i 0)] := by
  have hsz : sortPairs ((arange D.length).zip D) = (arange D.length).zip D :=
    sortPairs_of_sorted
      (zip_sorted_leFst _ _ ((arange_sorted D.length).imp (fun h => le_of_lt h)))
  have hfst : ((arange D.length).zip D).map Prod.fst = arange D.length :=
    List.map_fst_zip _ _ (by rw [arange_length])
  have hsnd : ((arange D.length).zip D).map Prod.snd = D :=
    List.map_snd_zip _ _ (by rw [arange_length])
  have hknot : interpCubic (arange D.length) D ((i : ℚ)) = some (D.getD i 0) := by
    have := interpCubic_knot (arange D.length) D (arange_sorted D.length)
      (by rw [arange_length]; exact h2) i (by rw [arange_length]; exact hi)
    rwa [arange_getD D.length i hi] at this
  have hA : ¬ (lmin [((i : ℚ))] < 0 ∨ (D.length : ℚ) - 1 < lmax [((i : ℚ))]) := by
    rintro (h | h)
    · rw [lmin_singleton] at h
      exact absurd h (not_lt.mpr (by exact_mod_cast Nat.zero_le i))
    · rw [lmax_singleton] at h
      have : (i : ℚ) + 1 ≤ (D.length : ℚ) := by exact_mod_cast Nat.succ_le_of_lt hi
      linarith
  rw [p2w]
  simp only [hsz, hfst, hsnd, List.map_cons, List.map_nil, hknot]
  rw [if_neg (fun h => hA h.1)]

theorem w2p_knot (D : List ℚ) (i : ℕ) (hs : List.Sorted (· < ·) D)
    (h2 : 2 ≤ D.length) (hi : i < D.length) :
    w2p D [D.getD i 0] true = [some ((i : ℚ))] := by
  have hmem : D.getD i 0 ∈ D := by
    rw [List.getD_eq_getElem D 0 hi]; exact List.getElem_mem hi
  have hsz : sortPairs (D.zip (arange D.length)) = D.zip (arange D.length) :=
    sortPairs_of_sorted (zip_sorted_leFst _ _ (hs.imp (fun h => le_of_lt h)))
  have hfst : (D.zip (arange D.length)).map Prod.fst = D :=
    List.map_fst_zip _ _ (by rw [arange_length])
  have hsnd : (D.zip (arange D.length)).map Prod.snd = arange D.length :=
    List.map_snd_zip _ _ (by rw [arange_length])
  have hknot : interpCubic D (arange D.length) (D.getD i 0) = some ((i : ℚ)) := by
    have := interpCubic_knot D (arange D.length) hs h2 i hi
    rwa [arange_getD D.length i hi] at this
  have hA : ¬ (lmin [D.getD i 0] < lmin D ∨ lmax D < lmax [D.getD i 0]) := by
    rintro (h | h)
    · rw [lmin_singleton] at h
      exact absurd h (not_lt.mpr (lmin_le_of_mem hmem))
    · rw [lmax_singleton] at h
      exact absurd h (not_lt.mpr (le_lmax_of_mem hmem))
  rw [w2p]
  simp only [hsz, hfst, hsnd, List.map_cons, List.map_nil, hknot]
  rw [if_neg (fun h => hA h.1)]

/-! ## Helper lemmas: out-of-domain queries and the extrapolation overwrite -/

theorem map_getD_none (q : List ℚ) (f : ℚ → Option ℚ) (k : ℕ) (hk : k < q.length) :
    (q.map f).getD k none = f (q.getD k 0) := by
  rw [List.getD_eq_getElem _ none (by rw [List.length_map]; exact hk), List.getElem_map,
    List.getD_eq_getElem q 0 hk]

theorem interpCubic_short (xs ys : List ℚ) (t : ℚ) (h : xs.length < 2) :
    interpCubic xs ys t = none := by
  rw [interpCubic]
  simp only [if_pos h]

theorem interpCubic_out_of_domain (xs ys : List ℚ) (t : ℚ)
    (hs : List.Sorted (· ≤ ·) xs) (h : t < lmin xs ∨ lmax xs < t) :
    interpCubic xs ys t = none := by
  rcases Nat.lt_or_ge xs.length 2 with hn | hn
  · exact interpCubic_short xs ys t hn
  · have hne : xs ≠ [] := by
      intro h'; rw [h'] at hn; simp at hn
    have hcond : t < xs.getD 0 0 ∨ xs.getD (xs.length - 1) 0 < t := by
      rcases h with h | h
      · left; rwa [lmin_eq_head hs hne] at h
      · right; rwa [lmax_eq_last hs hne] at h
    rw [interpCubic]
    simp only [if_neg (by omega : ¬ xs.length < 2), if_pos hcond]

theorem win_sorted (ps : List (ℚ × ℚ)) :
    List.Sorted (· ≤ ·) ((sortPairs ps).map Prod.fst) := by
  have := List.sorted_insertionSort leFst ps
  exact List.Pairwise.map Prod.fst (fun a b h => h) this

theorem win_perm (D l : List ℚ) (hlen : D.length ≤ l.length) :
    ((sortPairs (D.zip l)).map Prod.fst).Perm D := by
  have h1 : (sortPairs (D.zip l)).Perm (D.zip l) := List.perm_insertionSort leFst _
  have h2 := h1.map Prod.fst
  rwa [List.map_fst_zip D l hlen] at h2

theorem zip_map_getD (q : List ℚ) (x : List (Option ℚ)) (g : ℚ × Option ℚ → Option ℚ)
    (k : ℕ) (hk : k < q.length) (hlen : q.length ≤ x.length) :
    ((q.zip x).map g).getD k none = g (q.getD k 0, x.getD k none) := by
  have hzlen : k < (q.zip x).length := by rw [List.length_zip]; omega
  rw [List.getD_eq_getElem _ none (by rw [List.length_map]; exact hzlen), List.getElem_map,
    List.getElem_zip, List.getD_eq_getElem q 0 hk, List.getD_eq_getElem x none (by omega)]

theorem w2p_false_getD (D q : List ℚ) (k : ℕ) (hk : k < q.length) :
    (w2p D q false).getD k none =
      interpCubic ((sortPairs (D.zip (arange D.length))).map Prod.fst)
        ((sortPairs (D.zip (arange D.length))).map Prod.snd) (q.getD k 0) := by
  rw [w2p]
  rw [if_neg (fun h => by simpa using h.2)]
  exact map_getD_none q _ k hk

theorem p2w_false_getD (D q : List ℚ) (k : ℕ) (hk : k < q.length) :
    (p2w D q false).getD k none =
      interpCubic ((sortPairs ((arange D.length).zip D)).map Prod.fst)
        ((sortPairs ((arange D.length).zip D)).map Prod.snd) (q.getD k 0) := by
  rw [p2w]
  rw [if_neg (fun h => by simpa using h.2)]
  exact map_getD_none q _ k hk

theorem w2p_out_none (D q : List ℚ) (k : ℕ) (hk : k < q.length)
    (hout : q.getD k 0 < lmin D ∨ lmax D < q.getD k 0) :
    (w2p D q false).getD k none = none := by
  rw [w2p_false_getD D q k hk]
  have hperm := win_perm D (arange D.length) (by rw [arange_length])
  refine interpCubic_out_of_domain _ _ _ (win_sorted _) ?_
  rw [lmin_perm hperm, lmax_perm hperm]
  exact hout

theorem p2w_out_none (D q : List ℚ) (k : ℕ) (hk : k < q.length)
    (hout : q.getD k 0 < 0 ∨ (D.length : ℚ) - 1 < q.getD k 0) :
    (p2w D q false).getD k none = none := by
  rw [p2w_false_getD D q k hk]
  have hsz : sortPairs ((arange D.length).zip D) = (arange D.length).zip D :=
    sortPairs_of_sorted
      (zip_sorted_leFst _ _ ((arange_sorted D.length).imp (fun h => le_of_lt h)))
  have hfst : ((arange D.length).zip D).map Prod.fst = arange D.length :=
    List.map_fst_zip _ _ (by rw [arange_length])
  rw [hsz, hfst]
  rcases Nat.lt_or_ge D.length 2 with hn | hn
  · exact interpCubic_short _ _ _ (by rw [arange_length]; exact hn)
  · refine interpCubic_out_of_domain _ _ _ ((arange_sorted D.length).imp le_of_lt) ?_
    have hne : arange D.length ≠ [] := by
      intro h'
      have := arange_length D.length
      rw [h'] at this
      simp at this
      omega
    rw [lmin_eq_head ((arange_sorted D.length).imp le_of_lt) hne,
      lmax_eq_last ((arange_sorted D.length).imp le_of_lt) hne,
      arange_length, arange_getD D.length 0 (by omega),
      arange_getD D.length (D.length - 1) (by omega)]
    rcases hout with h | h
    · left; exact_mod_cast h
    · right
      have hcast : ((D.length - 1 : ℕ) : ℚ) = (D.length : ℚ) - 1 := by
        have : 1 ≤ D.length := by omega
        push_cast [this]
        ring
      rw [hcast]
      exact h

theorem w2p_in_range_ext (D q : List ℚ) (k : ℕ) (hk : k < q.length)
    (h1 : lmin D ≤ q.getD k 0) (h2 : q.getD k 0 ≤ lmax D) :
    (w2p D q true).getD k none = (w2p D q false).getD k none := by
  rw [w2p_false_getD D q k hk, w2p]
  set x0 := q.map (fun t => interpCubic
    ((sortPairs (D.zip (arange D.length))).map Prod.fst)
    ((sortPairs (D.zip (arange D.length))).map Prod.snd) t) with hx0
  have hx0len : q.length ≤ x0.length := by rw [hx0, List.length_map]
  have hx0get : x0.getD k none = interpCubic
      ((sortPairs (D.zip (arange D.length))).map Prod.fst)
      ((sortPairs (D.zip (arange D.length))).map Prod.snd) (q.getD k 0) :=
    map_getD_none q _ k hk
  by_cases hA : (lmin q < lmin D ∨ lmax D < lmax q) ∧ (true : Bool) = true
  · rw [if_pos hA]
    by_cases hB : lmin q < lmin D
    · rw [if_pos hB]
      by_cases hC : lmax D < lmax q
      · rw [if_pos hC]
        rw [zip_map_getD q _ _ k hk (by rw [List.length_map, List.length_zip]; omega)]
        rw [if_neg (not_lt.mpr h2)]
        rw [zip_map_getD q x0 _ k hk hx0len]
        rw [if_neg (not_lt.mpr h1)]
        exact hx0get
      · rw [if_neg hC]
        rw [zip_map_getD q x0 _ k hk hx0len]
        rw [if_neg (not_lt.mpr h1)]
        exact hx0get
    · rw [if_neg hB]
      by_cases hC : lmax D < lmax q
      · rw [if_pos hC]
        rw [zip_map_getD q x0 _ k hk hx0len]
        rw [if_neg (not_lt.mpr h2)]
        exact hx0get
      · rw [if_neg hC]
        exact hx0get
  · rw [if_neg hA]
    exact hx0get

theorem p2w_in_range_ext (D q : List ℚ) (k : ℕ) (hk : k < q.length)
    (h1 : 0 ≤ q.getD k 0) (h2 : q.getD k 0 ≤ (D.length : ℚ) - 1) :
    (p2w D q true).getD k none = (p2w D q false).getD k none := by
  rw [p2w_false_getD D q k hk, p2w]
  set w0 := q.map (fun t => interpCubic
    ((sortPairs ((arange D.length).zip D)).map Prod.fst)
    ((sortPairs ((arange D.length).zip D)).map Prod.snd) t) with hw0
  have hw0len : q.length ≤ w0.length := by rw [hw0, List.length_map]
  have hw0get : w0.getD k none = interpCubic
      ((sortPairs ((arange D.length).zip D)).map Prod.fst)
      ((sortPairs ((arange D.length).zip D)).map Prod.snd) (q.getD k 0) :=
    map_getD_none q _ k hk
  by_cases hA : (lmin q < 0 ∨ (D.length : ℚ) - 1 < lmax q) ∧ (true : Bool) = true
  · rw [if_pos hA]
    by_cases hB : lmin q < 0
    · rw [if_pos hB]
      by_cases hC : (D.length : ℚ) - 1 < lmax q
      · rw [if_pos hC]
        rw [zip_map_getD q _ _ k hk (by rw [List.length_map, List.length_zip]; omega)]
        rw [if_neg (not_lt.mpr h2)]
        rw [zip_map_getD q w0 _ k hk hw0len]
        rw [if_neg (not_lt.mpr h1)]
        exact hw0get
      · rw [if_neg hC]
        rw [zip_map_getD q w0 _ k hk hw0len]
        rw [if_neg (not_lt.mpr h1)]
        exact hw0get
    · rw [if_neg hB]
      by_cases hC : (D.length : ℚ) - 1 < lmax q
      · rw [if_pos hC]
        rw [zip_map_getD q w0 _ k hk hw0len]
        rw [if_neg (not_lt.mpr h2)]
        exact hw0get
      · rw [if_neg hC]
        exact hw0get
  · rw [if_neg hA]
    exact hw0get

/-! ## Helper lemmas: the sparse band matrix -/

theorem sum_ite_intEq (n : ℕ) (A K : ℤ) (f : ℕ → ℚ) :
    (∑ j ∈ Finset.range n, if A - (j : ℤ) = K then f j else 0) =
      if 0 ≤ A - K ∧ A - K < (n : ℤ) then f (A - K).toNat else 0 := by
  by_cases h : 0 ≤ A - K ∧ A - K < (n : ℤ)
  · rw [if_pos h]
    have hz : ∀ b ∈ Finset.range n, b ≠ (A - K).toNat →
        (if A - (b : ℤ) = K then f b else 0) = 0 := by
      intro b _ hb
      rw [if_neg]
      intro hAb
      exact hb (by omega)
    rw [Finset.sum_eq_single_of_mem (A - K).toNat (Finset.mem_range.mpr (by omega)) hz]
    rw [if_pos (by omega)]
  · rw [if_neg h]
    refine Finset.sum_eq_zero ?_
    intro j hj
    rw [Finset.mem_range] at hj
    rw [if_neg]
    intro hAj
    exact h (by omega)

theorem sparsifyOffsets_length (nlsf : ℕ) : (sparsifyOffsets nlsf).length = nlsf := by
  rw [sparsifyOffsets, List.length_map, List.length_range]

theorem sparsifyOffsets_getD (nlsf j : ℕ) (hj : j < nlsf) :
    (sparsifyOffsets nlsf).getD j 0 = ((nlsf / 2 : ℕ) : ℤ) - (j : ℤ) := by
  have hlen : j < (sparsifyOffsets nlsf).length := by
    rw [sparsifyOffsets_length]; exact hj
  rw [List.getD_eq_getElem _ 0 hlen]
  simp only [sparsifyOffsets, List.getElem_map, List.getElem_range]

theorem sparsifyDiagonals_length (npix nlsf : ℕ) (lsf : ℕ → ℕ → ℚ) :
    (sparsifyDiagonals npix nlsf lsf).length = nlsf := by
  rw [sparsifyDiagonals, List.length_map, List.length_range]

theorem sparsifyDiag_getD (npix nlsf : ℕ) (lsf : ℕ → ℕ → ℚ) (j r c : ℕ)
    (hj : j < nlsf) (hr : r < npix) (hc : c < npix)
    (hoff : ((nlsf / 2 : ℕ) : ℤ) - (j : ℤ) = (c : ℤ) - (r : ℤ)) :
    ((sparsifyDiagonals npix nlsf lsf).getD j []).getD (min r c) 0 = lsf c j := by
  have hlen : j < (sparsifyDiagonals npix nlsf lsf).length := by
    rw [sparsifyDiagonals_length]; exact hj
  rw [List.getD_eq_getElem _ [] hlen]
  simp only [sparsifyDiagonals, List.getElem_map, List.getElem_range]
  rcases Int.lt_or_le (((nlsf / 2 : ℕ) : ℤ) - (j : ℤ)) 0 with hneg | hpos
  · rw [if_pos hneg]
    have hmin : min r c = c := by omega
    have hcc : c < npix - (((nlsf / 2 : ℕ) : ℤ) - (j : ℤ)).natAbs := by omega
    rw [hmin, List.getD_eq_getElem _ 0 (by
      rw [List.length_map, List.length_range]; exact hcc)]
    simp only [List.getElem_map, List.getElem_range]
  · rw [if_neg (not_lt.mpr hpos)]
    have hmin : min r c = r := by omega
    have htn : (((nlsf / 2 : ℕ) : ℤ) - (j : ℤ)).toNat = c - r := by omega
    have hrr : r < npix - (((nlsf / 2 : ℕ) : ℤ) - (j : ℤ)).toNat := by omega
    rw [hmin, List.getD_eq_getElem _ 0 (by
      rw [List.length_map, List.length_range]; exact hrr)]
    simp only [List.getElem_map, List.getElem_range]
    rw [htn]
    congr 1
    omega

theorem sparsifyMat_eq (npix nlsf : ℕ) (lsf : ℕ → ℕ → ℚ) (r c : ℕ)
    (hr : r < npix) (hc : c < npix) :
    sparsifyMat npix nlsf lsf r c =
      if c ≤ nlsf / 2 + r ∧ nlsf / 2 + r < c + nlsf then lsf c (nlsf / 2 + r - c)
      else 0 := by
  have hstep : ∀ j ∈ Finset.range nlsf,
      (if (sparsifyOffsets nlsf).getD j 0 = (c : ℤ) - (r : ℤ) then
        ((sparsifyDiagonals npix nlsf lsf).getD j []).getD (min r c) 0 else 0) =
      (if ((nlsf / 2 : ℕ) : ℤ) - (j : ℤ) = (c : ℤ) - (r : ℤ) then lsf c j else 0) := by
    intro j hj
    rw [Finset.mem_range] at hj
    rw [sparsifyOffsets_getD nlsf j hj]
    by_cases hoff : ((nlsf / 2 : ℕ) : ℤ) - (j : ℤ) = (c : ℤ) - (r : ℤ)
    · rw [if_pos hoff, if_pos hoff, sparsifyDiag_getD npix nlsf lsf j r c hj hr hc hoff]
    · rw [if_neg hoff, if_neg hoff]
  have hsum : sparsifyMat npix nlsf lsf r c =
      ∑ j ∈ Finset.range nlsf,
        (if ((nlsf / 2 : ℕ) : ℤ) - (j : ℤ) = (c : ℤ) - (r : ℤ) then lsf c j else 0) := by
    rw [sparsifyMat, diagsEntry, sparsifyOffsets_length]
    exact Finset.sum_congr rfl hstep
  rw [hsum, sum_ite_intEq nlsf ((nlsf / 2 : ℕ) : ℤ) ((c : ℤ) - (r : ℤ))
    (fun j => lsf c j)]
  by_cases hband : c ≤ nlsf / 2 + r ∧ nlsf / 2 + r < c + nlsf
  · rw [if_pos (by omega : 0 ≤ ((nlsf / 2 : ℕ) : ℤ) - ((c : ℤ) - (r : ℤ)) ∧
      ((nlsf / 2 : ℕ) : ℤ) - ((c : ℤ) - (r : ℤ)) < (nlsf : ℤ)), if_pos hband]
    congr 1
    omega
  · rw [if_neg (by omega : ¬ (0 ≤ ((nlsf / 2 : ℕ) : ℤ) - ((c : ℤ) - (r : ℤ)) ∧
      ((nlsf / 2 : ℕ) : ℤ) - ((c : ℤ) - (r : ℤ)) < (nlsf : ℤ))), if_neg hband]

/-! ## Helper lemmas: the convolver -/

theorem rawConv_id (npix nlsf : ℕ) (h1 : 1 ≤ nlsf) (spec : ℕ → ℚ) (r : ℕ)
    (hr : r < npix) : rawConv npix nlsf (idKernel nlsf) spec r = spec r := by
  rw [rawConv]
  have hstep : ∀ c ∈ Finset.range npix,
      sparsifyMat npix nlsf (idKernel nlsf) r c * spec c =
      (if c = r then spec c else 0) := by
    intro c hc
    rw [Finset.mem_range] at hc
    rw [sparsifyMat_eq npix nlsf _ r c hr hc]
    by_cases hcr : c = r
    · subst hcr
      rw [if_pos (by omega), if_pos rfl, idKernel]
      simp
    · rw [if_neg hcr]
      by_cases hband : c ≤ nlsf / 2 + r ∧ nlsf / 2 + r < c + nlsf
      · rw [if_pos hband, idKernel]
        rw [if_neg (by omega : ¬ nlsf / 2 + r - c = nlsf / 2)]
        ring
      · rw [if_neg hband]
        ring
  rw [Finset.sum_congr rfl hstep, Finset.sum_ite_eq' (Finset.range npix) r spec,
    if_pos (Finset.mem_range.mpr hr)]

theorem foldl_preserve {S : Type} (step : S → ℕ → S) (P : S → Prop) :
    ∀ (l : List ℕ) (st : S), (∀ s i, i ∈ l → P s → P (step s i)) → P st →
      P (l.foldl step st)
  | [], _, _, hst => hst
  | a :: t, st, h, hst => foldl_preserve step P t (step st a)
      (fun s i hi hs => h s i (List.mem_cons_of_mem a hi) hs)
      (h st a (List.mem_cons_self a t) hst)

theorem edgeStepLo_out_ne (npix nlsf : ℕ) (spec : ℕ → ℚ)
    (st : (ℕ → ℚ) × (ℕ → ℕ → ℚ)) (i r : ℕ) (h : r ≠ i) :
    (edgeStepLo npix nlsf spec st i).1 r = st.1 r := by
  rw [edgeStepLo]
  exact if_neg h

theorem edgeStepLo_row_ne (npix nlsf : ℕ) (spec : ℕ → ℚ)
    (st : (ℕ → ℚ) × (ℕ → ℕ → ℚ)) (i x y : ℕ) (h : x ≠ i) :
    (edgeStepLo npix nlsf spec st i).2 x y = st.2 x y := by
  rw [edgeStepLo]
  exact if_neg (fun hc => h hc.1)

theorem edgeStepHi_out_ne (npix nlsf : ℕ) (spec : ℕ → ℚ)
    (st : (ℕ → ℚ) × (ℕ → ℕ → ℚ)) (i r : ℕ) (h : r ≠ npix - i - 1) :
    (edgeStepHi npix nlsf spec st i).1 r = st.1 r := by
  rw [edgeStepHi]
  exact if_neg h

theorem edgeStepHi_row_ne (npix nlsf : ℕ) (spec : ℕ → ℚ)
    (st : (ℕ → ℚ) × (ℕ → ℕ → ℚ)) (i x y : ℕ) (h : x ≠ npix - i - 1) :
    (edgeStepHi npix nlsf spec st i).2 x y = st.2 x y := by
  rw [edgeStepHi]
  exact if_neg (fun hc => h hc.1)

theorem foldl_lo_out (npix nlsf : ℕ) (spec : ℕ → ℚ) (l : List ℕ)
    (st : (ℕ → ℚ) × (ℕ → ℕ → ℚ)) (r : ℕ) (h : ∀ i ∈ l, i ≠ r) :
    (l.foldl (edgeStepLo npix nlsf spec) st).1 r = st.1 r := by
  induction l generalizing st with
  | nil => rfl
  | cons a t ih =>
    rw [List.foldl_cons, ih _ (fun i hi => h i (List.mem_cons_of_mem a hi)),
      edgeStepLo_out_ne npix nlsf spec st a r
        (fun hc => h a (List.mem_cons_self a t) hc.symm)]

theorem foldl_lo_row (npix nlsf : ℕ) (spec : ℕ → ℚ) (l : List ℕ)
    (st : (ℕ → ℚ) × (ℕ → ℕ → ℚ)) (x y : ℕ) (h : ∀ i ∈ l, i ≠ x) :
    (l.foldl (edgeStepLo npix nlsf spec) st).2 x y = st.2 x y := by
  induction l generalizing st with
  | nil => rfl
  | cons a t ih =>
    rw [List.foldl_cons, ih _ (fun i hi => h i (List.mem_cons_of_mem a hi)),
      edgeStepLo_row_ne npix nlsf spec st a x y
        (fun hc => h a (List.mem_cons_self a t) hc.symm)]

theorem foldl_hi_out (npix nlsf : ℕ) (spec : ℕ → ℚ) (l : List ℕ)
    (st : (ℕ → ℚ) × (ℕ → ℕ → ℚ)) (r : ℕ) (h : ∀ i ∈ l, r ≠ npix - i - 1) :
    (l.foldl (edgeStepHi npix nlsf spec) st).1 r = st.1 r := by
  induction l generalizing st with
  | nil => rfl
  | cons a t ih =>
    rw [List.foldl_cons, ih _ (fun i hi => h i (List.mem_cons_of_mem a hi)),
      edgeStepHi_out_ne npix nlsf spec st a r (h a (List.mem_cons_self a t))]

theorem foldl_hi_row (npix nlsf : ℕ) (spec : ℕ → ℚ) (l : List ℕ)
    (st : (ℕ → ℚ) × (ℕ → ℕ → ℚ)) (x y : ℕ) (h : ∀ i ∈ l, x ≠ npix - i - 1) :
    (l.foldl (edgeStepHi npix nlsf spec) st).2 x y = st.2 x y := by
  induction l generalizing st with
  | nil => rfl
  | cons a t ih =>
    rw [List.foldl_cons, ih _ (fun i hi => h i (List.mem_cons_of_mem a hi)),
      edgeStepHi_row_ne npix nlsf spec st a x y (h a (List.mem_cons_self a t))]

theorem sum_id_slice (nlsf x lo len : ℕ) (hlo : lo ≤ nlsf / 2) (hm : nlsf / 2 - lo < len) :
    (∑ m ∈ Finset.range len, idKernel nlsf x (lo + m)) = 1 := by
  have hstep : ∀ m ∈ Finset.range len, idKernel nlsf x (lo + m) =
      if m = nlsf / 2 - lo then (1 : ℚ) else 0 := by
    intro m _
    rw [idKernel]
    by_cases h : lo + m = nlsf / 2
    · rw [if_pos h, if_pos (by omega)]
    · rw [if_neg h, if_neg (by omega)]
  rw [Finset.sum_congr rfl hstep,
    Finset.sum_ite_eq' (Finset.range len) (nlsf / 2 - lo) (fun _ => (1 : ℚ)),
    if_pos (Finset.mem_range.mpr hm)]

theorem sum_mul_id_slice (nlsf x lo len : ℕ) (g : ℕ → ℚ) (hlo : lo ≤ nlsf / 2)
    (hm : nlsf / 2 - lo < len) :
    (∑ m ∈ Finset.range len, g m * idKernel nlsf x (lo + m)) = g (nlsf / 2 - lo) := by
  have hstep : ∀ m ∈ Finset.range len, g m * idKernel nlsf x (lo + m) =
      if m = nlsf / 2 - lo then g m else 0 := by
    intro m _
    rw [idKernel]
    by_cases h : lo + m = nlsf / 2
    · rw [if_pos h, if_pos (by omega), mul_one]
    · rw [if_neg h, if_neg (by omega), mul_zero]
  rw [Finset.sum_congr rfl hstep, Finset.sum_ite_eq' (Finset.range len) (nlsf / 2 - lo) g,
    if_pos (Finset.mem_range.mpr hm)]

theorem edgeStepLo_id (npix nlsf : ℕ) (spec : ℕ → ℚ) (st : (ℕ → ℚ) × (ℕ → ℕ → ℚ))
    (i : ℕ) (h1n : 1 ≤ nlsf) (hle : nlsf ≤ npix) (hi : i ≤ nlsf / 2)
    (h1 : ∀ r < npix, st.1 r = spec r) (h2 : ∀ x y, st.2 x y = idKernel nlsf x y) :
    (∀ r < npix, (edgeStepLo npix nlsf spec st i).1 r = spec r) ∧
      ∀ x y, (edgeStepLo npix nlsf spec st i).2 x y = idKernel nlsf x y := by
  have hs : (∑ m ∈ Finset.range (nlsf - (nlsf / 2 - i)), st.2 i ((nlsf / 2 - i) + m)) = 1 := by
    have hcong : ∀ m ∈ Finset.range (nlsf - (nlsf / 2 - i)),
        st.2 i ((nlsf / 2 - i) + m) = idKernel nlsf i ((nlsf / 2 - i) + m) :=
      fun m _ => h2 i _
    rw [Finset.sum_congr rfl hcong]
    exact sum_id_slice nlsf i (nlsf / 2 - i) _ (by omega) (by omega)
  constructor
  · intro r hr
    by_cases hri : r = i
    · simp only [edgeStepLo, if_pos hri, eq_self_iff_true, true_and]
      have hcong : ∀ m ∈ Finset.range (nlsf - (nlsf / 2 - i)),
          spec m * (if nlsf / 2 - i ≤ (nlsf / 2 - i) + m ∧ (nlsf / 2 - i) + m < nlsf then
            st.2 i ((nlsf / 2 - i) + m) /
              (∑ m' ∈ Finset.range (nlsf - (nlsf / 2 - i)), st.2 i ((nlsf / 2 - i) + m'))
            else st.2 i ((nlsf / 2 - i) + m)) =
          spec m * idKernel nlsf i ((nlsf / 2 - i) + m) := by
        intro m _
        by_cases hc : nlsf / 2 - i ≤ (nlsf / 2 - i) + m ∧ (nlsf / 2 - i) + m < nlsf
        · rw [if_pos hc, hs, div_one, h2]
        · rw [if_neg hc, h2]
      rw [Finset.sum_congr rfl hcong,
        sum_mul_id_slice nlsf i (nlsf / 2 - i) _ spec (by omega) (by omega), hri]
      congr 1
      omega
    · simp only [edgeStepLo, if_neg hri]
      exact h1 r hr
  · intro x y
    simp only [edgeStepLo]
    by_cases hc : x = i ∧ nlsf / 2 - i ≤ y ∧ y < nlsf
    · rw [if_pos hc, hs, div_one, h2]
    · rw [if_neg hc, h2]

theorem edgeStepHi_id (npix nlsf : ℕ) (spec : ℕ → ℚ) (st : (ℕ → ℚ) × (ℕ → ℕ → ℚ))
    (i : ℕ) (hodd : nlsf % 2 = 1) (hle : nlsf ≤ npix) (hi : i ≤ nlsf / 2)
    (h1 : ∀ r < npix, st.1 r = spec r) (h2 : ∀ x y, st.2 x y = idKernel nlsf x y) :
    (∀ r < npix, (edgeStepHi npix nlsf spec st i).1 r = spec r) ∧
      ∀ x y, (edgeStepHi npix nlsf spec st i).2 x y = idKernel nlsf x y := by
  have hlen : min (nlsf / 2 + 1 + i) nlsf = nlsf / 2 + 1 + i := by omega
  have hs : (∑ m ∈ Finset.range (min (nlsf / 2 + 1 + i) nlsf), st.2 (npix - i - 1) m) = 1 := by
    have hcong : ∀ m ∈ Finset.range (min (nlsf / 2 + 1 + i) nlsf),
        st.2 (npix - i - 1) m = idKernel nlsf (npix - i - 1) (0 + m) := by
      intro m _
      rw [Nat.zero_add]
      exact h2 _ _
    rw [Finset.sum_congr rfl hcong]
    exact sum_id_slice nlsf (npix - i - 1) 0 _ (by omega) (by omega)
  constructor
  · intro r hr
    by_cases hri : r = npix - i - 1
    · simp only [edgeStepHi, if_pos hri, eq_self_iff_true, true_and]
      have hcong : ∀ m ∈ Finset.range (min (nlsf / 2 + 1 + i) nlsf),
          spec (npix - min (nlsf / 2 + 1 + i) nlsf + m) *
            (if m < min (nlsf / 2 + 1 + i) nlsf then
              st.2 (npix - i - 1) m /
                (∑ m' ∈ Finset.range (min (nlsf / 2 + 1 + i) nlsf), st.2 (npix - i - 1) m')
              else st.2 (npix - i - 1) m) =
          spec (npix - min (nlsf / 2 + 1 + i) nlsf + m) *
            idKernel nlsf (npix - i - 1) (0 + m) := by
        intro m _
        rw [Nat.zero_add]
        by_cases hc : m < min (nlsf / 2 + 1 + i) nlsf
        · rw [if_pos hc, hs, div_one, h2]
        · rw [if_neg hc, h2]
      rw [Finset.sum_congr rfl hcong,
        sum_mul_id_slice nlsf (npix - i - 1) 0 _ _ (by omega) (by omega), hri]
      congr 1
      omega
    · simp only [edgeStepHi, if_neg hri]
      exact h1 r hr
  · intro x y
    simp only [edgeStepHi]
    by_cases hc : x = npix - i - 1 ∧ y < min (nlsf / 2 + 1 + i) nlsf
    · rw [if_pos hc, hs, div_one, h2]
    · rw [if_neg hc, h2]

theorem convolveSparse_eq (npix nlsf : ℕ) (lsf : ℕ → ℕ → ℚ) (spec : ℕ → ℚ) :
    convolveSparse npix nlsf lsf spec =
      (List.range (nlsf / 2 + 1)).foldl (edgeStepHi npix nlsf spec)
        ((List.range (nlsf / 2 + 1)).foldl (edgeStepLo npix nlsf spec)
          (rawConv npix nlsf lsf spec, lsf)) := rfl

theorem convolve_id_odd (npix nlsf : ℕ) (spec : ℕ → ℚ) (hodd : nlsf % 2 = 1)
    (hle : nlsf ≤ npix) (r : ℕ) (hr : r < npix) :
    (convolveSparse npix nlsf (idKernel nlsf) spec).1 r = spec r := by
  have h1n : 1 ≤ nlsf := by omega
  have hP := foldl_preserve (edgeStepHi npix nlsf spec)
    (fun st => (∀ r' < npix, st.1 r' = spec r') ∧ ∀ x y, st.2 x y = idKernel nlsf x y)
    (List.range (nlsf / 2 + 1)) _
    (fun s i hi hs => edgeStepHi_id npix nlsf spec s i hodd hle
      (by rw [List.mem_range] at hi; omega) hs.1 hs.2)
    (foldl_preserve (edgeStepLo npix nlsf spec)
      (fun st => (∀ r' < npix, st.1 r' = spec r') ∧ ∀ x y, st.2 x y = idKernel nlsf x y)
      (List.range (nlsf / 2 + 1)) (rawConv npix nlsf (idKernel nlsf) spec, idKernel nlsf)
      (fun s i hi hs => edgeStepLo_id npix nlsf spec s i h1n hle
        (by rw [List.mem_range] at hi; omega) hs.1 hs.2)
      ⟨fun r' hr' => rawConv_id npix nlsf h1n spec r' hr', fun _ _ => rfl⟩)
  rw [convolveSparse_eq]
  exact hP.1 r hr

theorem convolve_frame_rows (npix nlsf : ℕ) (lsf : ℕ → ℕ → ℚ) (spec : ℕ → ℚ)
    (x : ℕ) (hx1 : nlsf / 2 < x) (hx2 : x + nlsf / 2 + 1 < npix) (y : ℕ) :
    (convolveSparse npix nlsf lsf spec).2 x y = lsf x y := by
  rw [convolveSparse_eq]
  rw [foldl_hi_row npix nlsf spec _ _ x y
    (fun i hi => by rw [List.mem_range] at hi; omega)]
  rw [foldl_lo_row npix nlsf spec _ _ x y
    (fun i hi => by rw [List.mem_range] at hi; omega)]

theorem edgeStepLo_zero_ones (npix nlsf : ℕ) (st : (ℕ → ℚ) × (ℕ → ℕ → ℚ))
    (hsum0 : (∑ m ∈ Finset.range (nlsf - nlsf / 2), st.2 0 (nlsf / 2 + m)) ≠ 0) :
    (edgeStepLo npix nlsf (fun _ => 1) st 0).1 0 = 1 := by
  simp only [edgeStepLo, Nat.sub_zero, eq_self_iff_true, true_and, if_true, one_mul]
  have hcong : ∀ m ∈ Finset.range (nlsf - nlsf / 2),
      (if nlsf / 2 ≤ nlsf / 2 + m ∧ nlsf / 2 + m < nlsf then
        st.2 0 (nlsf / 2 + m) / (∑ m' ∈ Finset.range (nlsf - nlsf / 2), st.2 0 (nlsf / 2 + m'))
        else st.2 0 (nlsf / 2 + m)) =
      st.2 0 (nlsf / 2 + m) /
        (∑ m' ∈ Finset.range (nlsf - nlsf / 2), st.2 0 (nlsf / 2 + m')) := by
    intro m hm
    rw [Finset.mem_range] at hm
    rw [if_pos (by omega)]
  rw [Finset.sum_congr rfl hcong, ← Finset.sum_div, div_self hsum0]

theorem edgeStepHi_zero_ones (npix nlsf : ℕ) (st : (ℕ → ℚ) × (ℕ → ℕ → ℚ))
    (hsum : (∑ m ∈ Finset.range (min (nlsf / 2 + 1) nlsf), st.2 (npix - 1) m) ≠ 0) :
    (edgeStepHi npix nlsf (fun _ => 1) st 0).1 (npix - 1) = 1 := by
  simp only [edgeStepHi, Nat.sub_zero, Nat.add_zero, eq_self_iff_true, true_and, if_true,
    one_mul]
  have hcong : ∀ m ∈ Finset.range (min (nlsf / 2 + 1) nlsf),
      (if m < min (nlsf / 2 + 1) nlsf then
        st.2 (npix - 1) m /
          (∑ m' ∈ Finset.range (min (nlsf / 2 + 1) nlsf), st.2 (npix - 1) m')
        else st.2 (npix - 1) m) =
      st.2 (npix - 1) m /
        (∑ m' ∈ Finset.range (min (nlsf / 2 + 1) nlsf), st.2 (npix - 1) m') := by
    intro m hm
    rw [Finset.mem_range] at hm
    rw [if_pos hm]
  rw [Finset.sum_congr rfl hcong, ← Finset.sum_div, div_self hsum]

theorem convolve_ones_edges (npix nlsf : ℕ) (lsf : ℕ → ℕ → ℚ)
    (h1 : 1 ≤ nlsf) (h2 : nlsf ≤ npix) (h3 : nlsf / 2 + 1 < npix)
    (hsum0 : (∑ m ∈ Finset.range (nlsf - nlsf / 2), lsf 0 (nlsf / 2 + m)) ≠ 0)
    (hsumN : (∑ m ∈ Finset.range (min (nlsf / 2 + 1) nlsf), lsf (npix - 1) m) ≠ 0) :
    (convolveSparse npix nlsf lsf (fun _ => 1)).1 0 = 1 ∧
      (convolveSparse npix nlsf lsf (fun _ => 1)).1 (npix - 1) = 1 := by
  rw [convolveSparse_eq]
  rw [List.range_succ_eq_map]
  simp only [List.foldl_cons]
  set st0 : (ℕ → ℚ) × (ℕ → ℕ → ℚ) := (rawConv npix nlsf lsf (fun _ => 1), lsf) with hst0
  set stA := edgeStepLo npix nlsf (fun _ => 1) st0 0 with hstA
  set st1 := ((List.range (nlsf / 2)).map Nat.succ).foldl
    (edgeStepLo npix nlsf (fun _ => 1)) stA with hst1
  set stB := edgeStepHi npix nlsf (fun _ => 1) st1 0 with hstB
  have hA0 : stA.1 0 = 1 := edgeStepLo_zero_ones npix nlsf st0 hsum0
  have h10 : st1.1 0 = 1 := by
    rw [hst1, foldl_lo_out npix nlsf _ _ _ 0 (fun i hi => by
      rcases List.mem_map.mp hi with ⟨j, _, rfl⟩
      omega)]
    exact hA0
  have h1row : ∀ y, st1.2 (npix - 1) y = lsf (npix - 1) y := by
    intro y
    rw [hst1, foldl_lo_row npix nlsf _ _ _ (npix - 1) y (fun i hi => by
      rcases List.mem_map.mp hi with ⟨j, hj, rfl⟩
      rw [List.mem_range] at hj
      omega)]
    rw [hstA, edgeStepLo_row_ne npix nlsf _ st0 0 (npix - 1) y (by omega)]
  have hBN : stB.1 (npix - 1) = 1 := by
    refine edgeStepHi_zero_ones npix nlsf st1 ?_
    have : (∑ m ∈ Finset.range (min (nlsf / 2 + 1) nlsf), st1.2 (npix - 1) m) =
        ∑ m ∈ Finset.range (min (nlsf / 2 + 1) nlsf), lsf (npix - 1) m :=
      Finset.sum_congr rfl (fun m _ => h1row m)
    rw [this]
    exact hsumN
  have hB0 : stB.1 0 = 1 := by
    rw [hstB, edgeStepHi_out_ne npix nlsf _ st1 0 0 (by omega)]
    exact h10
  constructor
  · rw [foldl_hi_out npix nlsf _ _ _ 0 (fun i hi => by
      rcases List.mem_map.mp hi with ⟨j, hj, rfl⟩
      rw [List.mem_range] at hj
      omega)]
    exact hB0
  · rw [foldl_hi_out npix nlsf _ _ _ (npix - 1) (fun i hi => by
      rcases List.mem_map.mp hi with ⟨j, hj, rfl⟩
      rw [List.mem_range] at hj
      omega)]
    exact hBN

/-! ## Helper lemmas: the logarithmic grid -/

theorem map_getD_real (l : List ℝ) (f : ℝ → ℝ) (k : ℕ) (hk : k < l.length) :
    (l.map f).getD k 0 = f (l.getD k 0) := by
  rw [List.getD_eq_getElem _ 0 (by rw [List.length_map]; exact hk), List.getElem_map,
    List.getD_eq_getElem l 0 hk]

theorem wave_all_pos {wave : List ℝ} (hs : List.Sorted (· < ·) wave)
    (hpos : 0 < wave.getD 0 0) : ∀ x ∈ wave, 0 < x := by
  intro x hx
  rcases List.mem_iff_getElem.mp hx with ⟨j, hj, hval⟩
  have h0 : wave.getD 0 0 ≤ wave.getD j 0 :=
    sorted_getD_le (hs.imp le_of_lt) (Nat.zero_le j) hj
  rw [← hval, ← List.getD_eq_getElem wave 0 hj]
  exact lt_of_lt_of_le hpos h0

theorem logwave_sorted {wave : List ℝ} (hs : List.Sorted (· < ·) wave)
    (hpos : ∀ x ∈ wave, 0 < x) :
    List.Sorted (· < ·) (wave.map (fun x => Real.logb 10 x)) := by
  rw [List.Sorted, List.pairwise_iff_getElem]
  intro i j hi hj hij
  rw [List.length_map] at hi hj
  rw [List.getElem_map, List.getElem_map]
  refine Real.logb_lt_logb (by norm_num) ?_ ?_
  · exact hpos _ (List.getElem_mem hi)
  · exact List.pairwise_iff_getElem.mp hs i j hi hj hij

theorem slopeList_length (l : List ℝ) : (slopeList l).length = l.length - 1 := by
  rw [slopeList, List.length_map, List.length_range]

theorem slopeList_pos {l : List ℝ} (hs : List.Sorted (· < ·) l) :
    ∀ x ∈ slopeList l, 0 < x := by
  intro x hx
  rw [slopeList] at hx
  rcases List.mem_map.mp hx with ⟨i, hi, rfl⟩
  rw [List.mem_range] at hi
  exact sub_pos.mpr (sorted_getD_lt hs (Nat.lt_succ_self i) (by omega))

theorem slopeList_sum (l : List ℝ) :
    (slopeList l).sum = l.getD (l.length - 1) 0 - l.getD 0 0 := by
  rcases Nat.eq_zero_or_pos l.length with h0 | h0
  · have : l = [] := List.length_eq_zero.mp h0
    subst this
    simp [slopeList]
  · have hsum : (slopeList l).sum =
        ∑ i ∈ Finset.range (l.length - 1), (l.getD (i + 1) 0 - l.getD i 0) := rfl
    rw [hsum, Finset.sum_range_sub (fun i => l.getD i 0) (l.length - 1)]

theorem median_pos {l : List ℝ} (hne : l ≠ []) (hpos : ∀ x ∈ l, 0 < x) :
    0 < median l := by
  have hlen : 1 ≤ l.length := List.length_pos.mpr hne
  have hslen : (List.insertionSort (fun a b : ℝ => a ≤ b) l).length = l.length :=
    List.length_insertionSort _ l
  have hmem : ∀ k, k < l.length →
      0 < (List.insertionSort (fun a b : ℝ => a ≤ b) l).getD k 0 := by
    intro k hk
    have hk' : k < (List.insertionSort (fun a b : ℝ => a ≤ b) l).length := by omega
    rw [List.getD_eq_getElem _ 0 hk']
    exact hpos _ ((List.perm_insertionSort _ l).mem_iff.mp (List.getElem_mem hk'))
  rw [median]
  by_cases hpar : l.length % 2 = 1
  · rw [if_pos hpar]
    exact hmem _ (by omega)
  · rw [if_neg hpar]
    have e1 := hmem (l.length / 2 - 1) (by omega)
    have e2 := hmem (l.length / 2) (by omega)
    positivity

theorem median_le_sum {l : List ℝ} (hne : l ≠ []) (hpos : ∀ x ∈ l, 0 ≤ x) :
    median l ≤ l.sum := by
  have hlen : 1 ≤ l.length := List.length_pos.mpr hne
  have hslen : (List.insertionSort (fun a b : ℝ => a ≤ b) l).length = l.length :=
    List.length_insertionSort _ l
  have hmem : ∀ k, k < l.length →
      (List.insertionSort (fun a b : ℝ => a ≤ b) l).getD k 0 ≤ l.sum := by
    intro k hk
    have hk' : k < (List.insertionSort (fun a b : ℝ => a ≤ b) l).length := by omega
    rw [List.getD_eq_getElem _ 0 hk']
    exact List.single_le_sum hpos _
      ((List.perm_insertionSort _ l).mem_iff.mp (List.getElem_mem hk'))
  rw [median]
  by_cases hpar : l.length % 2 = 1
  · rw [if_pos hpar]
    exact hmem _ (by omega)
  · rw [if_neg hpar]
    have e1 := hmem (l.length / 2 - 1) (by omega)
    have e2 := hmem (l.length / 2) (by omega)
    linarith

theorem dwlog_pos {wave : List ℝ} (hs : List.Sorted (· < ·) wave)
    (h2 : 2 ≤ wave.length) (hpos : 0 < wave.getD 0 0) : 0 < logGridDwlog wave := by
  rw [logGridDwlog]
  refine median_pos ?_ (slopeList_pos (logwave_sorted hs (wave_all_pos hs hpos)))
  intro hnil
  have := slopeList_length (wave.map (fun x => Real.logb 10 x))
  rw [hnil, List.length_map] at this
  simp at this
  omega

theorem dwlog_le_range {wave : List ℝ} (hs : List.Sorted (· < ·) wave)
    (h2 : 2 ≤ wave.length) (hpos : 0 < wave.getD 0 0) :
    logGridDwlog wave ≤ Real.logb 10 (lmax wave) - Real.logb 10 (lmin wave) := by
  have hne : wave ≠ [] := by intro h; rw [h] at h2; simp at h2
  have hslo : ∀ x ∈ slopeList (wave.map (fun x => Real.logb 10 x)), 0 ≤ x :=
    fun x hx => le_of_lt (slopeList_pos (logwave_sorted hs (wave_all_pos hs hpos)) x hx)
  have hnil : slopeList (wave.map (fun x => Real.logb 10 x)) ≠ [] := by
    intro hnil
    have := slopeList_length (wave.map (fun x => Real.logb 10 x))
    rw [hnil, List.length_map] at this
    simp at this
    omega
  have hle := median_le_sum hnil hslo
  rw [slopeList_sum, List.length_map, map_getD_real wave _ _ (by omega),
    map_getD_real wave _ _ (by omega)] at hle
  rw [logGridDwlog]
  rw [lmax_eq_last (hs.imp le_of_lt) hne, lmin_eq_head (hs.imp le_of_lt) hne]
  exact hle

theorem cspeed_pos : (0 : ℝ) < cspeed := by
  rw [cspeed]; norm_num

theorem lmin_pos {wave : List ℝ} (hs : List.Sorted (· < ·) wave)
    (h2 : 2 ≤ wave.length) (hpos : 0 < wave.getD 0 0) : 0 < lmin wave := by
  have hne : wave ≠ [] := by intro h; rw [h] at h2; simp at h2
  rw [lmin_eq_head (hs.imp le_of_lt) hne]
  exact hpos

theorem lmax_pos {wave : List ℝ} (hs : List.Sorted (· < ·) wave)
    (h2 : 2 ≤ wave.length) (hpos : 0 < wave.getD 0 0) : 0 < lmax wave := by
  have hne : wave ≠ [] := by intro h; rw [h] at h2; simp at h2
  rw [lmax_eq_last (hs.imp le_of_lt) hne]
  exact lt_of_lt_of_le hpos (sorted_getD_le (hs.imp le_of_lt) (Nat.zero_le _) (by omega))

theorem logGridN_ge_one {wave : List ℝ} (hs : List.Sorted (· < ·) wave)
    (h2 : 2 ≤ wave.length) (hpos : 0 < wave.getD 0 0) (vel : ℝ) :
    1 ≤ logGridN wave vel := by
  have hd := dwlog_pos hs h2 hpos
  have hq : 1 ≤ (Real.logb 10 (lmax wave) - Real.logb 10 (lmin wave)) / logGridDwlog wave := by
    rw [le_div_iff hd, one_mul]
    exact dwlog_le_range hs h2 hpos
  rw [logGridN]
  by_cases hv : |vel| = 0
  · rw [if_pos hv, pytrunc, if_pos (by linarith)]
    exact Int.le_floor.mpr (by exact_mod_cast hq)
  · rw [if_neg hv]
    have := Int.le_ceil ((Real.logb 10 (lmax wave) - Real.logb 10 (lmin wave)) /
      logGridDwlog wave)
    exact_mod_cast le_trans hq this

theorem logGridNlo_nonneg {wave : List ℝ} (hs : List.Sorted (· < ·) wave)
    (h2 : 2 ≤ wave.length) (hpos : 0 < wave.getD 0 0) {vel : ℝ}
    (hvel : |vel| < cspeed) : 0 ≤ logGridNlo wave vel := by
  have hd := dwlog_pos hs h2 hpos
  have hw0 := lmin_pos hs h2 hpos
  have hfrac : |vel| / cspeed < 1 := (div_lt_one cspeed_pos).mpr hvel
  have hfrac0 : 0 ≤ |vel| / cspeed := div_nonneg (abs_nonneg vel) (le_of_lt cspeed_pos)
  have hwlo_pos : 0 < lmin wave - |vel| / cspeed * lmin wave := by
    have : |vel| / cspeed * lmin wave < 1 * lmin wave :=
      mul_lt_mul_of_pos_right hfrac hw0
    rw [one_mul] at this
    linarith
  have hwlo_le : lmin wave - |vel| / cspeed * lmin wave ≤ lmin wave := by
    have : 0 ≤ |vel| / cspeed * lmin wave := mul_nonneg hfrac0 (le_of_lt hw0)
    linarith
  rw [logGridNlo]
  refine Int.ceil_nonneg ?_
  refine div_nonneg ?_ (le_of_lt hd)
  exact sub_nonneg.mpr (Real.logb_le_logb_of_le (by norm_num) hwlo_pos hwlo_le)

theorem logGridNhi_nonneg {wave : List ℝ} (hs : List.Sorted (· < ·) wave)
    (h2 : 2 ≤ wave.length) (hpos : 0 < wave.getD 0 0) (vel : ℝ) :
    0 ≤ logGridNhi wave vel := by
  have hd := dwlog_pos hs h2 hpos
  have hw1 := lmax_pos hs h2 hpos
  have hfrac0 : 0 ≤ |vel| / cspeed := div_nonneg (abs_nonneg vel) (le_of_lt cspeed_pos)
  have hwhi_ge : lmax wave ≤ lmax wave + |vel| / cspeed * lmax wave := by
    have : 0 ≤ |vel| / cspeed * lmax wave := mul_nonneg hfrac0 (le_of_lt hw1)
    linarith
  rw [logGridNhi]
  refine Int.ceil_nonneg ?_
  refine div_nonneg ?_ (le_of_lt hd)
  exact sub_nonneg.mpr (Real.logb_le_logb_of_le (by norm_num) hw1 hwhi_ge)

theorem logGridNf_gt_nlo {wave : List ℝ} (hs : List.Sorted (· < ·) wave)
    (h2 : 2 ≤ wave.length) (hpos : 0 < wave.getD 0 0) {vel : ℝ}
    (hvel : |vel| < cspeed) : logGridNlo wave vel < logGridNf wave vel := by
  have hn := logGridN_ge_one hs h2 hpos vel
  have hhi := logGridNhi_nonneg hs h2 hpos vel
  rw [logGridNf]
  omega

theorem make_logwave_scale_length (wave : List ℝ) (vel : ℝ) :
    (make_logwave_scale wave vel).length = (logGridNf wave vel).toNat := by
  rw [make_logwave_scale]
  simp only [List.length_map, List.length_range]

theorem logGrid_anchor (wave : List ℝ) (vel : ℝ) (hs : List.Sorted (· < ·) wave)
    (h2 : 2 ≤ wave.length) (hpos : 0 < wave.getD 0 0) (hvel : |vel| < cspeed) :
    (make_logwave_scale wave vel).getD (logGridNlo wave vel).toNat 0 =
      wave.getD 0 0 := by
  have hlt : logGridNlo wave vel < logGridNf wave vel := logGridNf_gt_nlo hs h2 hpos hvel
  have hlo0 : 0 ≤ logGridNlo wave vel := logGridNlo_nonneg hs h2 hpos hvel
  have hidx : (logGridNlo wave vel).toNat < (logGridNf wave vel).toNat := by omega
  rw [make_logwave_scale]
  have hrawlen : ((List.range (logGridNf wave vel).toNat).map
      (fun (k : ℕ) => (10 : ℝ) ^ (((k : ℝ) - ((logGridNlo wave vel : ℤ) : ℝ)) *
        logGridDwlog wave + Real.logb 10 (lmin wave)))).length =
      (logGridNf wave vel).toNat := by
    rw [List.length_map, List.length_range]
  rw [map_getD_real _ _ _ (by rw [hrawlen]; exact hidx)]
  ring

theorem logGridNlo_zero (wave : List ℝ) : logGridNlo wave 0 = 0 := by
  rw [logGridNlo]
  simp only [abs_zero, zero_div, zero_mul, sub_zero, sub_self]
  exact Int.ceil_zero

theorem logGridNhi_zero (wave : List ℝ) : logGridNhi wave 0 = 0 := by
  rw [logGridNhi]
  simp only [abs_zero, zero_div, zero_mul, add_zero, sub_self]
  exact Int.ceil_zero

theorem logGridN_zero (wave : List ℝ) :
    logGridN wave 0 = pytrunc ((Real.logb 10 (lmax wave) -
      Real.logb 10 (lmin wave)) / logGridDwlog wave) := by
  rw [logGridN, if_pos abs_zero]

theorem logGrid_sorted (wave : List ℝ) (vel : ℝ) (hs : List.Sorted (· < ·) wave)
    (h2 : 2 ≤ wave.length) (hpos : 0 < wave.getD 0 0) :
    List.Sorted (· < ·) (make_logwave_scale wave vel) := by
  have hd := dwlog_pos hs h2 hpos
  rw [make_logwave_scale]
  rw [List.Sorted, List.pairwise_iff_getElem]
  intro i j hi hj hij
  simp only [List.length_map, List.length_range] at hi hj
  simp only [List.getElem_map, List.getElem_range]
  have hexp : ((i : ℝ) - ((logGridNlo wave vel : ℤ) : ℝ)) * logGridDwlog wave +
      Real.logb 10 (lmin wave) <
      ((j : ℝ) - ((logGridNlo wave vel : ℤ) : ℝ)) * logGridDwlog wave +
      Real.logb 10 (lmin wave) := by
    have hij' : (i : ℝ) < (j : ℝ) := by exact_mod_cast hij
    have := mul_lt_mul_of_pos_right
      (sub_lt_sub_right hij' ((logGridNlo wave vel : ℤ) : ℝ)) hd
    linarith
  have := (Real.rpow_lt_rpow_left_iff (x := (10 : ℝ)) (by norm_num)).mpr hexp
  exact sub_lt_sub_right this _

/-! ## The claims -/

/-- C1: for every input wavelength array and every velocity pad (a valid
input: strictly increasing positive wavelengths, at least two samples, pad
magnitude below the speed of light), the grid returned by
`make_logwave_scale` satisfies `fwave[nlo] = wave[0]` exactly, where `nlo` is
the computed low-side pad count, thanks to the anchor correction that shifts
the whole grid by the constant `fwave[nlo] - wave[0]`. -/
theorem c1_logGrid_anchor (wave : List ℝ) (vel : ℝ) (hs : List.Sorted (· < ·) wave)
    (h2 : 2 ≤ wave.length) (hpos : 0 < wave.getD 0 0) (hvel : |vel| < cspeed) :
    (make_logwave_scale wave vel).getD (logGridNlo wave vel).toNat 0 =
      wave.getD 0 0 :=
  logGrid_anchor wave vel hs h2 hpos hvel

/-- Witness for C1 at `wave = [10, 100]`, `vel = 0`. -/
theorem c1_logGrid_anchor_witness :
    (make_logwave_scale [10, 100] 0).getD (logGridNlo [10, 100] 0).toNat 0 =
      ([10, 100] : List ℝ).getD 0 0 :=
  c1_logGrid_anchor [10, 100] 0 (by norm_num [List.sorted_cons]) (by norm_num)
    (by norm_num [List.getD_cons_zero]) (by norm_num [cspeed])

/-- C2 counterexample: the kernel matrix of shape `npix = 3`, `nlsf = 1`
(so `nlsf ≤ npix`) yields 1 diagonal, not `npix = 3`: the operator built by
`sparsify` does not have "exactly npix diagonals". -/
theorem c2_diag_count_counterexample :
    ¬ ((sparsifyDiagonals 3 1 (fun _ _ => (1 : ℚ))).length = 3) := by decide

/-- C2 (amended): for every kernel matrix of shape `[npix, nlsf]` with
`1 ≤ nlsf ≤ npix`, `sparsify` builds exactly `nlsf` diagonals — one per
kernel column, not one per pixel — and their offsets lie in the range
`[-(npix-1), nlsf//2]`. -/
theorem c2_diag_count_amended (npix nlsf : ℕ) (lsf : ℕ → ℕ → ℚ)
    (h1 : 1 ≤ nlsf) (h2 : nlsf ≤ npix) :
    (sparsifyDiagonals npix nlsf lsf).length = nlsf ∧
      (sparsifyOffsets nlsf).length = nlsf ∧
      ∀ o ∈ sparsifyOffsets nlsf, -((npix : ℤ) - 1) ≤ o ∧ o ≤ ((nlsf / 2 : ℕ) : ℤ) := by
  refine ⟨sparsifyDiagonals_length npix nlsf lsf, sparsifyOffsets_length nlsf, ?_⟩
  intro o ho
  rw [sparsifyOffsets] at ho
  rcases List.mem_map.mp ho with ⟨ii, hii, rfl⟩
  rw [List.mem_range] at hii
  constructor <;> omega

/-- Witness for the amended C2 at `npix = 3`, `nlsf = 2`. -/
theorem c2_diag_count_amended_witness :
    (sparsifyDiagonals 3 2 (fun _ _ => (1 : ℚ))).length = 2 ∧
      (sparsifyOffsets 2).length = 2 ∧
      ∀ o ∈ sparsifyOffsets 2, -((3 : ℤ) - 1) ≤ o ∧ o ≤ ((2 / 2 : ℕ) : ℤ) :=
  c2_diag_count_amended 3 2 (fun _ _ => (1 : ℚ)) (by decide) (by decide)

/-- C3: for every valid input wavelength array (strictly increasing and
positive, at least two samples) and every velocity pad, the array returned by
`make_logwave_scale` is strictly increasing. -/
theorem c3_logGrid_strictMono (wave : List ℝ) (vel : ℝ)
    (hs : List.Sorted (· < ·) wave) (h2 : 2 ≤ wave.length)
    (hpos : 0 < wave.getD 0 0) :
    List.Sorted (· < ·) (make_logwave_scale wave vel) :=
  logGrid_sorted wave vel hs h2 hpos

/-- Witness for C3 at `wave = [10, 100]`, `vel = 5`. -/
theorem c3_logGrid_strictMono_witness :
    List.Sorted (· < ·) (make_logwave_scale [10, 100] 5) :=
  c3_logGrid_strictMono [10, 100] 5 (by norm_num [List.sorted_cons]) (by norm_num)
    (by norm_num [List.getD_cons_zero])

/-- C4 counterexample: `convolve_sparse` does NOT leave the kernel matrix
unchanged: for the all-ones 3×3 kernel and the all-ones spectrum, the final
state of kernel entry (0, 1) is 1/2 (the first edge loop divides the row
view `lsf[0, 1:]` by its sum 2 in place), not its input value 1. -/
theorem c4_kernel_mutated_counterexample :
    ¬ ((convolveSparse 3 3 (fun _ _ => (1 : ℚ)) (fun _ => 1)).2 0 1 = 1) := by
  rw [convolveSparse_eq]
  norm_num [List.range_succ, List.foldl_append, List.foldl_cons, List.foldl_nil,
    edgeStepLo, edgeStepHi, rawConv, sparsifyMat, diagsEntry, sparsifyOffsets,
    sparsifyDiagonals, Finset.sum_range_succ, Finset.sum_range_zero,
    -Finset.sum_boole]

/-- C4 (amended): `convolve_sparse` never writes to the spectrum (the model
consumes it read-only and the output is a fresh array), but it renormalizes
the truncated edge rows of the kernel matrix in place; every kernel row
strictly between the two edge bands (row x with `nlsf//2 < x` and
`x + nlsf//2 + 1 < npix`) is left unchanged. -/
theorem c4_frame_amended (npix nlsf : ℕ) (lsf : ℕ → ℕ → ℚ) (spec : ℕ → ℚ)
    (x : ℕ) (hx1 : nlsf / 2 < x) (hx2 : x + nlsf / 2 + 1 < npix) (y : ℕ) :
    (convolveSparse npix nlsf lsf spec).2 x y = lsf x y :=
  convolve_frame_rows npix nlsf lsf spec x hx1 hx2 y

/-- Witness for the amended C4: row 2 of a 5×1 kernel is untouched. -/
theorem c4_frame_amended_witness :
    (convolveSparse 5 1 (fun i j => (10 * i + j : ℚ)) (fun _ => 1)).2 2 0 =
      (fun i j => (10 * i + j : ℚ)) 2 0 :=
  c4_frame_amended 5 1 (fun i j => (10 * i + j : ℚ)) (fun _ => 1) 2 (by decide)
    (by decide) 0

/-- C5: round-trip law over the interior domain: for every strictly
increasing dispersion solution with at least two samples and every pixel
index `i < npix`, `p2w` maps the pixel `i` to the wavelength `D[i]`, and
`w2p` maps that wavelength back to exactly `i` — so
`w2p(D, p2w(D, i)) = i` holds exactly (hence within any interpolation
tolerance). -/
theorem c5_roundtrip (D : List ℚ) (i : ℕ) (hs : List.Sorted (· < ·) D)
    (h2 : 2 ≤ D.length) (hi : i < D.length) :
    p2w D [(i : ℚ)] true = [some (D.getD i 0)] ∧
      w2p D [D.getD i 0] true = [some ((i : ℚ))] :=
  ⟨p2w_knot D i h2 hi, w2p_knot D i hs h2 hi⟩

/-- Witness for C5 at `D = [3, 7]`, `i = 1`. -/
theorem c5_roundtrip_witness :
    p2w [3, 7] [(1 : ℚ)] true = [some (([3, 7] : List ℚ).getD 1 0)] ∧
      w2p [3, 7] [([3, 7] : List ℚ).getD 1 0] true = [some ((1 : ℚ))] :=
  c5_roundtrip [3, 7] 1 (by decide) (by decide) (by decide)

/-- C6 counterexample: for an identity kernel of even width (`npix = 4`,
`nlsf = 4`, each row 1 at center column `nlsf//2 = 2`), `convolve_sparse`
does not return the spectrum `[0, 1, 2, 3]` unchanged: the second edge loop's
slice `lsf[ii, :hlf+1+i]` clamps at the row width, misaligning the kernel
center, and output pixel 1 becomes `spec[2] = 2 ≠ 1`. -/
theorem c6_identity_counterexample :
    ¬ ((convolveSparse 4 4 (idKernel 4) (fun r => (r : ℚ))).1 1 =
      (fun r => (r : ℚ)) 1) := by
  rw [convolveSparse_eq]
  norm_num [List.range_succ, List.foldl_append, List.foldl_cons, List.foldl_nil,
    edgeStepLo, edgeStepHi, rawConv, sparsifyMat, diagsEntry, sparsifyOffsets,
    sparsifyDiagonals, Finset.sum_range_succ, Finset.sum_range_zero, idKernel,
    -Finset.sum_boole]

/-- C6 (amended): for every identity kernel of ODD width `nlsf ≤ npix` (each
row 1 at the center column `nlsf//2`, 0 elsewhere) and every spectrum,
`convolve_sparse` returns the spectrum exactly unchanged at every pixel; for
even `nlsf` the counterexample shows one edge pixel is shifted. -/
theorem c6_identity_odd_amended (npix nlsf : ℕ) (spec : ℕ → ℚ)
    (hodd : nlsf % 2 = 1) (hle : nlsf ≤ npix) (r : ℕ) (hr : r < npix) :
    (convolveSparse npix nlsf (idKernel nlsf) spec).1 r = spec r :=
  convolve_id_odd npix nlsf spec hodd hle r hr

/-- Witness for the amended C6 at `npix = 4`, `nlsf = 3`, `spec r = r`,
pixel 2. -/
theorem c6_identity_odd_amended_witness :
    (convolveSparse 4 3 (idKernel 3) (fun r => (r : ℚ))).1 2 =
      (fun r => (r : ℚ)) 2 :=
  c6_identity_odd_amended 4 3 (fun r => (r : ℚ)) (by decide) (by decide) 2 (by decide)

/-- C7: for every kernel matrix (with `1 ≤ nlsf ≤ npix` and the two edge
bands disjoint, `nlsf//2 + 1 < npix`) whose truncated edge rows — row 0 cut
to `lsf[0, hlf:]` and row `npix-1` cut to `lsf[npix-1, :hlf+1]` — have
nonzero sum, applying `convolve_sparse` to the all-ones spectrum returns
exactly 1 at pixel 0 and at pixel `npix - 1`: the edge renormalization makes
the truncated kernel rows sum to 1. -/
theorem c7_edge_ones (npix nlsf : ℕ) (lsf : ℕ → ℕ → ℚ)
    (h1 : 1 ≤ nlsf) (h2 : nlsf ≤ npix) (h3 : nlsf / 2 + 1 < npix)
    (hsum0 : (∑ m ∈ Finset.range (nlsf - nlsf / 2), lsf 0 (nlsf / 2 + m)) ≠ 0)
    (hsumN : (∑ m ∈ Finset.range (min (nlsf / 2 + 1) nlsf), lsf (npix - 1) m) ≠ 0) :
    (convolveSparse npix nlsf lsf (fun _ => 1)).1 0 = 1 ∧
      (convolveSparse npix nlsf lsf (fun _ => 1)).1 (npix - 1) = 1 :=
  convolve_ones_edges npix nlsf lsf h1 h2 h3 hsum0 hsumN

/-- Witness for C7 at `npix = 3`, `nlsf = 3`, `lsf i j = i + j + 1`. -/
theorem c7_edge_ones_witness :
    (convolveSparse 3 3 (fun i j => (i + j + 1 : ℚ)) (fun _ => 1)).1 0 = 1 ∧
      (convolveSparse 3 3 (fun i j => (i + j + 1 : ℚ)) (fun _ => 1)).1 (3 - 1) = 1 :=
  c7_edge_ones 3 3 (fun i j => (i + j + 1 : ℚ)) (by decide) (by decide) (by decide)
    (by norm_num [Finset.sum_range_succ, Finset.sum_range_zero])
    (by norm_num [Finset.sum_range_succ, Finset.sum_range_zero])

/-- C8: with `extrapolate = false`, every query outside the input domain
yields the NaN marker `none` at the corresponding output position (and no
exception: the functions are total): for `w2p`, a wavelength outside
`[min dispersion, max dispersion]`; for `p2w`, a pixel position below 0 or
above `npix - 1`. -/
theorem c8_out_of_domain_nan (D q : List ℚ) (k : ℕ) (hk : k < q.length) :
    ((q.getD k 0 < lmin D ∨ lmax D < q.getD k 0) →
      (w2p D q false).getD k none = none) ∧
    ((q.getD k 0 < 0 ∨ (D.length : ℚ) - 1 < q.getD k 0) →
      (p2w D q false).getD k none = none) :=
  ⟨fun hout => w2p_out_none D q k hk hout, fun hout => p2w_out_none D q k hk hout⟩

/-- Witness for C8 at `D = [3, 7]`, query 100 (above both domains). -/
theorem c8_out_of_domain_nan_witness :
    ((([(100 : ℚ)]).getD 0 0 < lmin [3, 7] ∨ lmax [3, 7] < ([(100 : ℚ)]).getD 0 0) →
      (w2p [3, 7] [100] false).getD 0 none = none) ∧
    ((([(100 : ℚ)]).getD 0 0 < 0 ∨
        ((([3, 7] : List ℚ).length : ℚ) - 1 < ([(100 : ℚ)]).getD 0 0)) →
      (p2w [3, 7] [100] false).getD 0 none = none) :=
  c8_out_of_domain_nan [3, 7] [100] 0 (by decide)

/-- C9: with velocity pad 0, both pad counts `nlo` and `nhi` are 0, the
output length of `make_logwave_scale` equals the unpadded interior count
computed with a truncating (`np.int`, not `ceil`) division of the log-range
by `dwlog`, and the first output element equals `wave[0]` exactly. -/
theorem c9_vel_zero (wave : List ℝ) (hs : List.Sorted (· < ·) wave)
    (h2 : 2 ≤ wave.length) (hpos : 0 < wave.getD 0 0) :
    logGridNlo wave 0 = 0 ∧ logGridNhi wave 0 = 0 ∧
      (make_logwave_scale wave 0).length =
        (pytrunc ((Real.logb 10 (lmax wave) - Real.logb 10 (lmin wave)) /
          logGridDwlog wave)).toNat ∧
      (make_logwave_scale wave 0).getD 0 0 = wave.getD 0 0 := by
  refine ⟨logGridNlo_zero wave, logGridNhi_zero wave, ?_, ?_⟩
  · rw [make_logwave_scale_length, logGridNf, logGridNlo_zero, logGridNhi_zero,
      logGridN_zero, add_zero, add_zero]
  · have h := logGrid_anchor wave 0 hs h2 hpos (by rw [abs_zero]; exact cspeed_pos)
    rwa [logGridNlo_zero, Int.toNat_zero] at h

/-- Witness for C9 at `wave = [10, 100]`. -/
theorem c9_vel_zero_witness :
    logGridNlo [10, 100] 0 = 0 ∧ logGridNhi [10, 100] 0 = 0 ∧
      (make_logwave_scale [10, 100] 0).length =
        (pytrunc ((Real.logb 10 (lmax [10, 100]) - Real.logb 10 (lmin [10, 100])) /
          logGridDwlog [10, 100])).toNat ∧
      (make_logwave_scale [10, 100] 0).getD 0 0 = ([10, 100] : List ℝ).getD 0 0 :=
  c9_vel_zero [10, 100] (by norm_num [List.sorted_cons]) (by norm_num)
    (by norm_num [List.getD_cons_zero])

/-- C10: the entries of the `w2p` output at query positions inside
`[min dispersion, max dispersion]` are identical whether `extrapolate` is
true or false — the extrapolation pass overwrites only out-of-range
positions — and the same holds for `p2w` at in-range pixel positions
(inside `[0, npix-1]`). -/
theorem c10_extrapolate_frame (D q : List ℚ) (k : ℕ) (hk : k < q.length) :
    (lmin D ≤ q.getD k 0 ∧ q.getD k 0 ≤ lmax D →
      (w2p D q true).getD k none = (w2p D q false).getD k none) ∧
    (0 ≤ q.getD k 0 ∧ q.getD k 0 ≤ (D.length : ℚ) - 1 →
      (p2w D q true).getD k none = (p2w D q false).getD k none) :=
  ⟨fun h => w2p_in_range_ext D q k hk h.1 h.2,
    fun h => p2w_in_range_ext D q k hk h.1 h.2⟩

/-- Witness for C10 at `D = [1/2, 3]`, query 1 (inside both domains). -/
theorem c10_extrapolate_frame_witness :
    (lmin [1/2, 3] ≤ ([(1 : ℚ)]).getD 0 0 ∧ ([(1 : ℚ)]).getD 0 0 ≤ lmax [1/2, 3] →
      (w2p [1/2, 3] [1] true).getD 0 none = (w2p [1/2, 3] [1] false).getD 0 none) ∧
    (0 ≤ ([(1 : ℚ)]).getD 0 0 ∧
        ([(1 : ℚ)]).getD 0 0 ≤ ((([1/2, 3] : List ℚ).length : ℚ) - 1) →
      (p2w [1/2, 3] [1] true).getD 0 none = (p2w [1/2, 3] [1] false).getD 0 none) :=
  c10_extrapolate_frame [1/2, 3] [1] 0 (by decide)
